import Mathlib

/-!
# EDAP core — shallow embedding and verification

This file embeds the core of the EDAP pattern analyzer / string generator
(package `edap`: `models.py`, `analyzer.py`, `generators/base.py`,
`generators/random_gen.py`, `generators/smart.py`, `generators/pattern.py`,
`generators/markov.py`, `generators/regex_gen.py`) and proves properties of
the embedded definitions.

Conventions of the embedding:
* Python strings are `List Char`; character classification uses the ASCII
  fragment of Python's `str.isupper` / `islower` / `isdigit`.
* Python `dict` / `Counter` objects are insertion-ordered association lists
  `List (key × Nat)`; `x[k] += 1` is `bumpCount`, which updates an existing
  key in place and appends a fresh key at the end, exactly like CPython.
* Python `set` objects are lists with membership-guarded append
  (`setInsert`), preserving only membership information the code relies on.
* Exceptions (`ValueError`, `KeyError`) are `Except String`; a Python
  function returning `Optional[str]` becomes `Except String (Option Word)`,
  so "returned None" and "raised" are distinguished.
* Randomness: every random draw reads one value from a stream `Nat → Nat`
  at a running counter `k` and advances the counter.  A generator carries a
  `RandSrc`: the `secrets` stream, the seeded `random.Random` stream, and
  the `_use_secure_random` flag; `_random_choice` / `_weighted_choice`
  branch on the flag exactly as in `base.py`.
-/

set_option autoImplicit false

namespace EDAP

/-- A Python string, as a list of characters. -/
abbrev Word := List Char

/-! ## Association-list counters (Python `dict` / `collections.Counter`) -/

/-- Look up a key in an insertion-ordered association list (`d.get(k)` /
`d[k]` on a Python dict, `None` when absent). -/
def alookup {κ β : Type} [DecidableEq κ] (l : List (κ × β)) (key : κ) : Option β :=
  (l.find? (fun p => decide (p.1 = key))).map (fun p => p.2)

/-- `d.get(k, dflt)` on a Python dict. -/
def alookupD {κ β : Type} [DecidableEq κ] (l : List (κ × β)) (key : κ) (dflt : β) : β :=
  (alookup l key).getD dflt

/-- `counter[k] += 1` on a Python `Counter`: increment in place when the key
exists, append the key with count 1 otherwise (CPython dicts keep insertion
order). -/
def bumpCount {κ : Type} [DecidableEq κ] : List (κ × Nat) → κ → List (κ × Nat)
  | [], key => [(key, 1)]
  | (a, n) :: t, key =>
      if a = key then (a, n + 1) :: t else (a, n) :: bumpCount t key

/-- `sum(d.values())` on a Python dict of counts. -/
def sumValues {κ : Type} : List (κ × Nat) → Nat :=
  fun l => (l.map (fun p => p.2)).sum

/-- `list(d.keys())` on a Python dict. -/
def keysOf {κ β : Type} (l : List (κ × β)) : List κ :=
  l.map (fun p => p.1)

/-- `x in s` then `s.add(x)` modelled on a list standing for a Python set:
append only when absent. -/
def setInsert {α : Type} [DecidableEq α] (l : List α) (a : α) : List α :=
  if a ∈ l then l else l ++ [a]

/-! ## `models.py` — CharType -/

/-- `CharType` enum from `models.py`: character type classification. -/
inductive CharType : Type where
  | UPPER : CharType
  | LOWER : CharType
  | DIGIT : CharType
  | SYMBOL : CharType
deriving DecidableEq, Repr

/-- `CharType.from_char`: uppercase → UPPER, lowercase → LOWER, digit →
DIGIT, anything else → SYMBOL (ASCII fragment of the Python predicates). -/
def CharType.from_char (c : Char) : CharType :=
  if c.isUpper then .UPPER
  else if c.isLower then .LOWER
  else if c.isDigit then .DIGIT
  else .SYMBOL

/-- The `value` of each `CharType` member: "U", "l", "n", "@". -/
def CharType.value : CharType → Char
  | .UPPER => 'U'
  | .LOWER => 'l'
  | .DIGIT => 'n'
  | .SYMBOL => '@'

/-- `CharType(x)` on a one-character string: the enum member whose value is
`x`, or an error (`ValueError`) for any other character. -/
def CharType.ofValue? (c : Char) : Option CharType :=
  if c = 'U' then some .UPPER
  else if c = 'l' then some .LOWER
  else if c = 'n' then some .DIGIT
  else if c = '@' then some .SYMBOL
  else none

/-- The type pattern of a word: one `CharType` per character (the string
`pattern` built character-by-character in `LengthStats.add_word`, with the
symbol alphabet replaced by the enum itself). -/
def typePattern (w : Word) : List CharType :=
  w.map CharType.from_char

/-! ## `models.py` — PositionStats -/

/-- `PositionStats`: statistics for one position of words of one length. -/
structure PositionStats : Type where
  position : Nat
  length : Nat
  char_counts : List (Char × Nat)
  type_counts : List (CharType × Nat)
deriving DecidableEq, Repr

/-- A fresh `PositionStats(position=i, length=L)`. -/
def PositionStats.init (i L : Nat) : PositionStats :=
  { position := i, length := L, char_counts := [], type_counts := [] }

/-- `PositionStats.add_char`: record a character at this position. -/
def PositionStats.add_char (ps : PositionStats) (c : Char) : PositionStats :=
  { ps with
    char_counts := bumpCount ps.char_counts c
    type_counts := bumpCount ps.type_counts (CharType.from_char c) }

/-- `PositionStats.get_chars_by_type`: all characters of a given type seen
at this position (iteration over the `char_counts` keys). -/
def PositionStats.get_chars_by_type (ps : PositionStats) (t : CharType) : List Char :=
  (keysOf ps.char_counts).filter (fun c => decide (CharType.from_char c = t))

/-! ## `models.py` — LengthStats -/

/-- `LengthStats`: statistics for words of a specific length.  The Python
`positions` dict has exactly the keys `0 .. length-1` (created eagerly by
`__post_init__` and never extended), so it is embedded as a list indexed by
position; `i in self.positions` becomes `i < positions.length`. -/
structure LengthStats : Type where
  length : Nat
  count : Nat
  positions : List PositionStats
  patterns : List (List CharType × Nat)
deriving DecidableEq, Repr

/-- `LengthStats(length=L)` together with its `__post_init__`. -/
def LengthStats.init (L : Nat) : LengthStats :=
  { length := L
    count := 0
    positions := (List.range L).map (fun i => PositionStats.init i L)
    patterns := [] }

/-- The per-position update loop of `add_word`: `self.positions[i].add_char(char)`
for each index `i` of the word (positions beyond the word, which cannot occur
when the lengths agree, are left unchanged). -/
def addCharsToPositions : List PositionStats → List Char → List PositionStats
  | ps, [] => ps
  | [], _ :: _ => []
  | p :: ps, c :: cs => p.add_char c :: addCharsToPositions ps cs

/-- `LengthStats.add_word`: raises `ValueError` when the word length differs
from `self.length`; otherwise bumps `count`, records every character at its
position, and bumps the word's type pattern. -/
def LengthStats.add_word (ls : LengthStats) (w : Word) : Except String LengthStats :=
  if w.length ≠ ls.length then
    .error "Word length != expected length"
  else
    .ok { ls with
          count := ls.count + 1
          positions := addCharsToPositions ls.positions w
          patterns := bumpCount ls.patterns (typePattern w) }

/-- Replay a sequence of `add_word` calls: a call that raises leaves the
stats unchanged (the Python method raises before any mutation). -/
def LengthStats.addAll (ls : LengthStats) (ws : List Word) : LengthStats :=
  ws.foldl (fun s w => match s.add_word w with
    | .ok s' => s'
    | .error _ => s) ls

/-! ## `analyzer.py` — PatternAnalyzer -/

/-- The whitespace characters stripped by Python's `str.strip()` (ASCII). -/
def isPySpace (c : Char) : Bool :=
  c = ' ' || c = '\t' || c = '\n' || c = '\r' || c = '\x0b' || c = '\x0c'

/-- `line.strip()`. -/
def pyStrip (w : Word) : Word :=
  ((w.dropWhile isPySpace).reverse.dropWhile isPySpace).reverse

/-- The co-occurrence index `char -> position -> position -> set of chars`.
The Python data is a `defaultdict` tree where every materialized inner set
is non-empty (each set is created by the very `add` that populates it), so
an absent key chain and an empty set are interchangeable; the index is
embedded as a total function that returns `∅` off the recorded chains. -/
def Cooc : Type := Char → Nat → Nat → Finset Char

/-- The empty co-occurrence index. -/
def Cooc.empty : Cooc := fun _ _ _ => ∅

/-- `cooc[ch][i][j].add(d)`. -/
def Cooc.add (cc : Cooc) (ch : Char) (i j : Nat) (d : Char) : Cooc :=
  fun ch' i' j' =>
    if ch' = ch ∧ i' = i ∧ j' = j then insert d (cc ch' i' j') else cc ch' i' j'

/-- The `FULL_KEYBOARD` reference charset from `analyzer.py` (backslash,
quotes and braces written by code point). -/
def FULL_KEYBOARD : List Char :=
  ['\x60', '1', '2', '3', '4', '5', '6', '7', '8', '9', '0', '-', '=',
   'q', 'w', 'e', 'r', 't', 'y', 'u', 'i', 'o', 'p', '[', ']', '\x5c',
   'a', 's', 'd', 'f', 'g', 'h', 'j', 'k', 'l', ';', '\x27',
   'z', 'x', 'c', 'v', 'b', 'n', 'm', ',', '.', '/',
   '~', '!', '@', '#', '$', '%', '^', '&', '*', '(', ')', '_', '+',
   'Q', 'W', 'E', 'R', 'T', 'Y', 'U', 'I', 'O', 'P', '\x7b', '\x7d', '|',
   'A', 'S', 'D', 'F', 'G', 'H', 'J', 'K', 'L', ':', '\x22',
   'Z', 'X', 'C', 'V', 'B', 'N', 'M', '<', '>', '?']

/-- The mutable state of a `PatternAnalyzer` after `_reset` and any number
of processed words.  Python sets (`_unique_words`, `_charset`) are lists
with membership-guarded insertion. -/
structure AnalyzerState : Type where
  words : List Word
  unique_words : List Word
  charset : List Char
  length_stats : List (Nat × LengthStats)
  global_char_frequency : List (Char × Nat)
  global_type_frequency : List (CharType × Nat)
  cooccurrence : Cooc

/-- `PatternAnalyzer._reset`. -/
def AnalyzerState.init : AnalyzerState :=
  { words := [], unique_words := [], charset := [], length_stats := [],
    global_char_frequency := [], global_type_frequency := [],
    cooccurrence := Cooc.empty }

/-- `self._length_stats[length].add_word(word)` — update the stats stored
under the word's length; `KeyError` if the key is absent (never reached:
`_process_word` creates the entry first). -/
def addWordAtKey : List (Nat × LengthStats) → Word → Except String (List (Nat × LengthStats))
  | [], _ => .error "KeyError"
  | (L, ls) :: t, w =>
      if L = w.length then
        match ls.add_word w with
        | .error e => .error e
        | .ok ls' => .ok ((L, ls') :: t)
      else
        match addWordAtKey t w with
        | .error e => .error e
        | .ok t' => .ok ((L, ls) :: t')

/-- The inner loop of `_process_word`'s co-occurrence pass: for the
character `c` fixed at position `i`, record the character at one other
position (`if i != j`). -/
def coocStep (c : Char) (i : Nat) (cc : Cooc) (jd : Nat × Char) : Cooc :=
  if i ≠ jd.1 then cc.add c i jd.1 jd.2 else cc

/-- One pass of the inner `for j, other_char in enumerate(word)` loop over
the whole word. -/
def coocOuterStep (w : Word) (cc : Cooc) (ic : Nat × Char) : Cooc :=
  w.enum.foldl (coocStep ic.2 ic.1) cc

/-- One pass of the `for i, char in enumerate(word)` loop of
`_process_word`: update charset, the global frequency tables, and run the
co-occurrence inner loop. -/
def charStep (w : Word) (acc : AnalyzerState) (ic : Nat × Char) : AnalyzerState :=
  { acc with
    charset := setInsert acc.charset ic.2
    global_char_frequency := bumpCount acc.global_char_frequency ic.2
    global_type_frequency :=
      bumpCount acc.global_type_frequency (CharType.from_char ic.2)
    cooccurrence := coocOuterStep w acc.cooccurrence ic }

/-- `PatternAnalyzer._process_word`: record the word, create the
`LengthStats` for its length if needed and update it, then walk the word
updating charset, global frequencies, and the co-occurrence index for every
ordered pair of distinct positions. -/
def _process_word (st : AnalyzerState) (w : Word) : Except String AnalyzerState :=
  let st1 : AnalyzerState :=
    { st with words := st.words ++ [w], unique_words := setInsert st.unique_words w }
  let stats0 : List (Nat × LengthStats) :=
    match alookup st1.length_stats w.length with
    | some _ => st1.length_stats
    | none => st1.length_stats ++ [(w.length, LengthStats.init w.length)]
  match addWordAtKey stats0 w with
  | .error e => .error e
  | .ok stats1 => .ok (w.enum.foldl (charStep w) { st1 with length_stats := stats1 })

/-- `PatternAnalyzer._analyze_stream`: strip each line, skip empty results
and lengths outside `[min_length, max_length]`, process the rest. -/
def _analyze_stream (minL maxL : Nat) (st : AnalyzerState) :
    List Word → Except String AnalyzerState
  | [] => .ok st
  | line :: rest =>
      let word := pyStrip line
      if word = [] then _analyze_stream minL maxL st rest
      else if word.length < minL ∨ maxL < word.length then
        _analyze_stream minL maxL st rest
      else
        match _process_word st word with
        | .error e => .error e
        | .ok st' => _analyze_stream minL maxL st' rest

/-- `min(lengths) if lengths else 0` over the keys of `length_stats`. -/
def pyMinKeys (l : List (Nat × LengthStats)) : Nat :=
  match keysOf l with
  | [] => 0
  | h :: t => t.foldl Nat.min h

/-- `max(lengths) if lengths else 0` over the keys of `length_stats`. -/
def pyMaxKeys (l : List (Nat × LengthStats)) : Nat :=
  match keysOf l with
  | [] => 0
  | h :: t => t.foldl Nat.max h

/-- `AnalysisResult` from `models.py` (the immutable snapshot built by
`_build_result`). -/
structure AnalysisResult : Type where
  total_words : Nat
  unique_words : Nat
  charset : List Char
  discarded_charset : List Char
  length_stats : List (Nat × LengthStats)
  global_char_frequency : List (Char × Nat)
  global_type_frequency : List (CharType × Nat)
  min_length : Nat
  max_length : Nat
  cooccurrence : Cooc

/-- `AnalysisResult.get_charset_by_type`. -/
def AnalysisResult.get_charset_by_type (a : AnalysisResult) (t : CharType) : List Char :=
  a.charset.filter (fun c => decide (CharType.from_char c = t))

/-- `PatternAnalyzer._build_result`. -/
def _build_result (st : AnalyzerState) : AnalysisResult :=
  { total_words := st.words.length
    unique_words := st.unique_words.length
    charset := st.charset
    discarded_charset := FULL_KEYBOARD.filter (fun c => decide (c ∉ st.charset))
    length_stats := st.length_stats
    global_char_frequency := st.global_char_frequency
    global_type_frequency := st.global_type_frequency
    min_length := pyMinKeys st.length_stats
    max_length := pyMaxKeys st.length_stats
    cooccurrence := st.cooccurrence }

/-- `PatternAnalyzer.analyze_words`: reset, stream, build. -/
def analyze_words (minL maxL : Nat) (ws : List Word) : Except String AnalysisResult :=
  match _analyze_stream minL maxL AnalyzerState.init ws with
  | .error e => .error e
  | .ok st => .ok (_build_result st)

/-- Spec-side definition (C2): the entries of the input retained by the
spec's words — stripped, non-empty, and with stripped length inside
`[min_length, max_length]`. -/
def specRetained (minL maxL : Nat) (lines : List Word) : List Word :=
  lines.filterMap (fun line =>
    let w := pyStrip line
    if w = [] then none
    else if w.length < minL ∨ maxL < w.length then none
    else some w)

/-! ## `generators/base.py` — random source and BaseGenerator -/

/-- The random sources of a generator: the `secrets` stream, the stream of
the seeded `random.Random`, and the `_use_secure_random` flag set in
`BaseGenerator.__init__`.  Each draw reads the stream at a running counter. -/
structure RandSrc : Type where
  useSecure : Bool
  secure : Nat → Nat
  rng : Nat → Nat

/-- One raw draw: `secrets` when `_use_secure_random`, else the seeded rng
(this is the branch at the top of `_random_choice` / `_weighted_choice`). -/
def RandSrc.draw (g : RandSrc) (k : Nat) : Nat :=
  if g.useSecure then g.secure k else g.rng k

/-- `BaseGenerator.__init__`: a seed selects the deterministic stream
`seedPrng seed` (the model of `random.Random(seed)`); no seed selects the
secure stream (`_rng` stays `None`, modelled as a dead constant stream). -/
def mkRandSrc (seed : Option Nat) (secure : Nat → Nat) (seedPrng : Nat → Nat → Nat) :
    RandSrc :=
  match seed with
  | some s => { useSecure := false, secure := secure, rng := seedPrng s }
  | none => { useSecure := true, secure := secure, rng := fun _ => 0 }

/-- `BaseGenerator._random_choice`: `ValueError` on an empty sequence, else
an element picked by one draw (`choice` = draw reduced modulo the length). -/
def _random_choice {α : Type} (g : RandSrc) (l : List α) (k : Nat) :
    Except String (α × Nat) :=
  match l with
  | [] => .error "Cannot choose from empty sequence"
  | a :: t => .ok ((a :: t).get ⟨g.draw k % (a :: t).length, Nat.mod_lt _ (by simp)⟩, k + 1)

/-- The cumulative-weight walk of `_weighted_choice`: return the first item
whose cumulative weight exceeds the draw, else the last item (`items[-1]`).
`last` carries the most recently passed item so the base case is Python's
`items[-1]` fallback. -/
def cumWalk {κ : Type} : List (κ × Nat) → Nat → κ → κ
  | [], _, last => last
  | (a, w) :: rest, r, _ => if r < w then a else cumWalk rest (r - w) a

/-- `BaseGenerator._weighted_choice`: `ValueError` on empty weights; uniform
fallback when the total weight is 0; otherwise one draw in `[0, total)`
resolved through the cumulative walk. -/
def _weighted_choice {κ : Type} (g : RandSrc) (weights : List (κ × Nat)) (k : Nat) :
    Except String (κ × Nat) :=
  match weights with
  | [] => .error "Cannot choose from empty weights"
  | (a0, w0) :: rest =>
      let total := sumValues ((a0, w0) :: rest)
      if total = 0 then
        _random_choice g (keysOf ((a0, w0) :: rest)) k
      else
        .ok (cumWalk ((a0, w0) :: rest) (g.draw k % total) a0, k + 1)

/-- `BaseGenerator._choose_length`: weighted choice over
`{length: ls.count}` built from `length_stats` in insertion order. -/
def _choose_length (g : RandSrc) (a : AnalysisResult) (k : Nat) :
    Except String (Nat × Nat) :=
  _weighted_choice g (a.length_stats.map (fun p => (p.1, p.2.count))) k

/-- The duplicate-avoidance bookkeeping of a generator: the
`exclude_original` flag, `_original_words`, and `_generated`. -/
structure GenBook : Type where
  exclude_original : Bool
  original_words : List Word
  generated : List Word

/-- `BaseGenerator.is_duplicate`. -/
def is_duplicate (b : GenBook) (w : Word) : Bool :=
  if b.exclude_original ∧ w ∈ b.original_words then true
  else decide (w ∈ b.generated)

/-- The `while len(results) < count and attempts < max_attempts` loop of
`BaseGenerator.generate`, with `remaining = max_attempts - attempts` as the
structural counter.  `g1` is the concrete generator's `generate_one`. -/
def generateLoop (g1 : Nat → Except String (Option Word × Nat)) (count : Nat)
    (allow_duplicates : Bool) :
    Nat → GenBook → List Word → Nat → Except String (List Word × GenBook × Nat)
  | 0, b, results, k => .ok (results, b, k)
  | remaining + 1, b, results, k =>
      if results.length < count then
        match g1 k with
        | .error e => .error e
        | .ok (none, k') => generateLoop g1 count allow_duplicates remaining b results k'
        | .ok (some w, k') =>
            if ¬ allow_duplicates ∧ is_duplicate b w then
              generateLoop g1 count allow_duplicates remaining b results k'
            else
              generateLoop g1 count allow_duplicates remaining
                { b with generated := setInsert b.generated w } (results ++ [w]) k'
      else .ok (results, b, k)

/-- `BaseGenerator.generate`: defaults `max_attempts` to `count * 100` when
it is 0, then runs the retry loop starting from empty results. -/
def BaseGenerator.generate (g1 : Nat → Except String (Option Word × Nat))
    (count max_attempts : Nat) (allow_duplicates : Bool) (b : GenBook) (k : Nat) :
    Except String (List Word × GenBook × Nat) :=
  let budget := if max_attempts = 0 then count * 100 else max_attempts
  generateLoop g1 count allow_duplicates budget b [] k

/-! ## `generators/random_gen.py` — RandomGenerator -/

/-- The `for pos in range(length)` loop of `RandomGenerator.generate_one`:
per-position charset when the flag is set, variety exists and the position
has more than one observed character, else the global charset. -/
def randomFill (g : RandSrc) (a : AnalysisResult) (use_position_charset : Bool)
    (ls : LengthStats) (has_variety : Bool) :
    List Nat → List Char → Nat → Except String (List Char × Nat)
  | [], chars, k => .ok (chars, k)
  | pos :: restPos, chars, k =>
      let step : Except String (Char × Nat) :=
        if use_position_charset ∧ has_variety ∧ pos < ls.positions.length then
          match ls.positions.get? pos with
          | none => .error "KeyError"
          | some ps =>
              if ps.char_counts.length > 1 then
                _random_choice g (keysOf ps.char_counts) k
              else
                _random_choice g a.charset k
        else _random_choice g a.charset k
      match step with
      | .error e => .error e
      | .ok (c, k') =>
          randomFill g a use_position_charset ls has_variety restPos (chars ++ [c]) k'

/-- `RandomGenerator.generate_one`. -/
def RandomGenerator.generate_one (g : RandSrc) (a : AnalysisResult)
    (use_position_charset : Bool) (k : Nat) : Except String (Option Word × Nat) :=
  match _choose_length g a k with
  | .error e => .error e
  | .ok (length, k1) =>
      match alookup a.length_stats length with
      | none => .ok (none, k1)
      | some ls =>
          let has_variety := decide (ls.count > 1)
          match randomFill g a use_position_charset ls has_variety
              (List.range length) [] k1 with
          | .error e => .error e
          | .ok (chars, k2) => .ok (some chars, k2)

/-- A full `RandomGenerator(analysis, seed).generate(count, max_attempts)`
run: construct the random source from the seed, then run the inherited
`generate` with this generator's `generate_one`. -/
def RandomGenerator.generate (seed : Option Nat) (secure : Nat → Nat)
    (seedPrng : Nat → Nat → Nat) (a : AnalysisResult) (use_position_charset : Bool)
    (exclude_original : Bool) (originals : List Word) (count max_attempts : Nat)
    (k : Nat) : Except String (List Word × GenBook × Nat) :=
  let g := mkRandSrc seed secure seedPrng
  BaseGenerator.generate
    (fun k0 => RandomGenerator.generate_one g a use_position_charset k0)
    count max_attempts false
    { exclude_original := exclude_original, original_words := originals, generated := [] }
    k

/-! ## `generators/smart.py` — SmartGenerator -/

/-- `"".join(result)` over a partially filled result array whose unfilled
slots are the empty string (modelled as `none`). -/
def joinFilled : List (Option Char) → List Char
  | [] => []
  | none :: t => joinFilled t
  | some c :: t => c :: joinFilled t

/-- One pass of the `for pos, char in enumerate(current)` loop shared by
`_find_compatible_chars` and `_find_compatible_typed_chars`: skip empty
slots, skip placed characters without a recorded co-occurrence chain
(an absent chain and `∅` coincide, see `Cooc`), else intersect. -/
def coocFilterStep (a : AnalysisResult) (target_pos : Nat)
    (cand : List Char) (pc : Nat × Option Char) : List Char :=
  match pc.2 with
  | none => cand
  | some c =>
      if a.cooccurrence c pc.1 target_pos = ∅ then cand
      else cand.filter (fun x => decide (x ∈ a.cooccurrence c pc.1 target_pos))

/-- `SmartGenerator._find_compatible_chars`: characters seen at
`target_pos`, intersected with the co-occurrence sets of every placed
character. -/
def _find_compatible_chars (a : AnalysisResult) (current : List (Option Char))
    (target_pos : Nat) (ls : LengthStats) : List Char :=
  if h : target_pos < ls.positions.length then
    current.enum.foldl (coocFilterStep a target_pos)
      (keysOf (ls.positions.get ⟨target_pos, h⟩).char_counts)
  else []

/-- The initial-character choice of `SmartGenerator.generate_one`:
frequency-weighted among the characters of the start position when variety
exists and more than one character was seen there, else a global-charset
draw. -/
def smartStartChar (g : RandSrc) (a : AnalysisResult) (ls : LengthStats)
    (has_variety : Bool) (start_pos : Nat) (k : Nat) : Except String (Char × Nat) :=
  if hv : has_variety ∧ start_pos < ls.positions.length then
    if (ls.positions.get ⟨start_pos, hv.2⟩).char_counts.length > 1 then
      _weighted_choice g (ls.positions.get ⟨start_pos, hv.2⟩).char_counts k
    else _random_choice g a.charset k
  else _random_choice g a.charset k

/-- The per-position character choice inside the `while positions:` loop of
`SmartGenerator.generate_one`: frequency-weight among the compatible set
when it has more than one member, else any varied position charset, else
the global charset.  `smartCompatible` is the loop's `compatible` local. -/
def smartCompatible (a : AnalysisResult) (ls : LengthStats) (has_variety : Bool)
    (result : List (Option Char)) (pos : Nat) : List Char :=
  if has_variety then _find_compatible_chars a result pos ls else []

/-- See `smartFillChar` (split out so each branch is addressable). -/
def smartFillChar (g : RandSrc) (a : AnalysisResult) (ls : LengthStats)
    (has_variety : Bool) (result : List (Option Char)) (pos : Nat) (k : Nat) :
    Except String (Char × Nat) :=
  if smartCompatible a ls has_variety result pos ≠ [] ∧
      (smartCompatible a ls has_variety result pos).length > 1 then
    match ls.positions.get? pos with
    | none => .error "KeyError"
    | some ps2 =>
        _weighted_choice g
          ((smartCompatible a ls has_variety result pos).map
            (fun c => (c, alookupD ps2.char_counts c 1))) k
  else if hv : has_variety ∧ pos < ls.positions.length then
    if (ls.positions.get ⟨pos, hv.2⟩).char_counts.length > 1 then
      _weighted_choice g (ls.positions.get ⟨pos, hv.2⟩).char_counts k
    else _random_choice g a.charset k
  else _random_choice g a.charset k

/-- The `while positions:` loop of `SmartGenerator.generate_one`.  Each pass
removes the randomly chosen position, so the loop runs exactly
`positions.length` times; `fuel` is that count (an error on exhaustion is
unreachable when `fuel = positions.length`). -/
def smartFill (g : RandSrc) (a : AnalysisResult) (ls : LengthStats)
    (has_variety : Bool) :
    Nat → List Nat → List (Option Char) → Nat → Except String (List (Option Char) × Nat)
  | _, [], result, k => .ok (result, k)
  | 0, _ :: _, _, _ => .error "loop fuel exhausted"
  | fuel + 1, p :: ps, result, k =>
      match _random_choice g (p :: ps) k with
      | .error e => .error e
      | .ok (pos, k1) =>
          match smartFillChar g a ls has_variety result pos k1 with
          | .error e => .error e
          | .ok (c, k2) =>
              smartFill g a ls has_variety fuel ((p :: ps).erase pos)
                (result.set pos (some c)) k2

/-- `SmartGenerator.generate_one`. -/
def SmartGenerator.generate_one (g : RandSrc) (a : AnalysisResult) (k : Nat) :
    Except String (Option Word × Nat) :=
  match _choose_length g a k with
  | .error e => .error e
  | .ok (length, k1) =>
      match alookup a.length_stats length with
      | none => .ok (none, k1)
      | some ls =>
          let has_variety := decide (ls.count > 1)
          let result : List (Option Char) := List.replicate length none
          match _random_choice g (List.range length) k1 with
          | .error e => .error e
          | .ok (start_pos, k2) =>
              let positions := (List.range length).erase start_pos
              match smartStartChar g a ls has_variety start_pos k2 with
              | .error e => .error e
              | .ok (start_char, k3) =>
                  match smartFill g a ls has_variety positions.length positions
                      (result.set start_pos (some start_char)) k3 with
                  | .error e => .error e
                  | .ok (filled, k4) => .ok (some (joinFilled filled), k4)

/-! ## `generators/pattern.py` — PatternGenerator -/

/-- `PatternGenerator._find_compatible_typed_chars`: like the smart variant
but the starting candidates are restricted to the required `CharType` (the
early `break` on an empty set is omitted: filtering an empty list is the
identity). -/
def _find_compatible_typed_chars (a : AnalysisResult) (current : List (Option Char))
    (target_pos : Nat) (t : CharType) (ls : LengthStats) : List Char :=
  if h : target_pos < ls.positions.length then
    let candidates := (ls.positions.get ⟨target_pos, h⟩).get_chars_by_type t
    if candidates = [] then []
    else current.enum.foldl (coocFilterStep a target_pos) candidates
  else []

/-- `PatternGenerator._get_char_of_type`: a character of the required type
at the given position, frequency-weighted among the position's characters
of that type, with global-charset fallback; `None` if no character of the
type exists anywhere. -/
def _get_char_of_type (g : RandSrc) (a : AnalysisResult) (pos : Nat) (t : CharType)
    (ls : LengthStats) (k : Nat) : Except String (Option Char × Nat) :=
  if h : pos < ls.positions.length then
    let ps := ls.positions.get ⟨pos, h⟩
    let chars0 := ps.get_chars_by_type t
    let chars_of_type := if chars0 = [] then a.get_charset_by_type t else chars0
    if chars_of_type = [] then .ok (none, k)
    else
      match _weighted_choice g
          (chars_of_type.map (fun c => (c, alookupD ps.char_counts c 1))) k with
      | .error e => .error e
      | .ok (c, k') => .ok (some c, k')
  else
    let chars_of_type := a.get_charset_by_type t
    if chars_of_type = [] then .ok (none, k)
    else
      match _random_choice g chars_of_type k with
      | .error e => .error e
      | .ok (c, k') => .ok (some c, k')

/-- The per-position attempt inside the filling loop of
`PatternGenerator._generate_from_pattern`: frequency-weight among the
compatible class-matching characters when more than one exists (this branch
always yields a character), else fall back to `_get_char_of_type` which may
yield `None` (a retry in the loop). -/
def patternCompatible (a : AnalysisResult) (ls : LengthStats) (has_variety : Bool)
    (result : List (Option Char)) (pos : Nat) (required : CharType) : List Char :=
  if has_variety then _find_compatible_typed_chars a result pos required ls else []

/-- See `patternFillStep` (the loop's `compatible` local, split out). -/
def patternFillStep (g : RandSrc) (a : AnalysisResult) (ls : LengthStats)
    (has_variety : Bool) (result : List (Option Char)) (pos : Nat)
    (required : CharType) (k : Nat) : Except String (Option Char × Nat) :=
  if patternCompatible a ls has_variety result pos required ≠ [] ∧
      (patternCompatible a ls has_variety result pos required).length > 1 then
    match ls.positions.get? pos with
    | none => .error "KeyError"
    | some ps2 =>
        match _weighted_choice g
            ((patternCompatible a ls has_variety result pos required).map
              (fun c => (c, alookupD ps2.char_counts c 1))) k with
        | .error e => .error e
        | .ok (c, k2) => .ok (some c, k2)
  else _get_char_of_type g a pos required ls k

/-- The `while positions and retries < self.max_retries:` loop of
`PatternGenerator._generate_from_pattern`.  A pass either fills (and
removes) a position resetting `retries` to 0, or bumps `retries`; `fuel`
bounds the pass count (it exceeds
`positions.length * (max_retries + 1) + max_retries` at every reachable
call, so the exhaustion error is dead code).  Returns the result array and
the unfilled positions. -/
def patternFill (g : RandSrc) (a : AnalysisResult) (pat : List Char) (ls : LengthStats)
    (has_variety : Bool) (max_retries : Nat) :
    Nat → List Nat → Nat → List (Option Char) → Nat →
    Except String (List (Option Char) × List Nat × Nat)
  | 0, positions, retries, result, k =>
      if positions = [] ∨ max_retries ≤ retries then .ok (result, positions, k)
      else .error "loop fuel exhausted"
  | fuel + 1, positions, retries, result, k =>
      match positions with
      | [] => .ok (result, [], k)
      | p :: ps =>
          if retries < max_retries then
            match _random_choice g (p :: ps) k with
            | .error e => .error e
            | .ok (pos, k1) =>
                match pat.get? pos with
                | none => .error "IndexError"
                | some sym =>
                    match CharType.ofValue? sym with
                    | none => .error "ValueError: not a valid CharType"
                    | some required =>
                        match patternFillStep g a ls has_variety result pos required k1 with
                        | .error e => .error e
                        | .ok (some c, k2) =>
                            patternFill g a pat ls has_variety max_retries fuel
                              ((p :: ps).erase pos) 0 (result.set pos (some c)) k2
                        | .ok (none, k2) =>
                            patternFill g a pat ls has_variety max_retries fuel
                              (p :: ps) (retries + 1) result k2
          else .ok (result, p :: ps, k)

/-- The post-loop fallback of `_generate_from_pattern`: fill each remaining
position with any character of the required class, failing the whole
generation (`None`) if some position cannot be filled. -/
def fillLeftover (g : RandSrc) (a : AnalysisResult) (pat : List Char) (ls : LengthStats) :
    List Nat → List (Option Char) → Nat →
    Except String (Option (List (Option Char)) × Nat)
  | [], result, k => .ok (some result, k)
  | pos :: rest, result, k =>
      match pat.get? pos with
      | none => .error "IndexError"
      | some sym =>
          match CharType.ofValue? sym with
          | none => .error "ValueError: not a valid CharType"
          | some required =>
              match _get_char_of_type g a pos required ls k with
              | .error e => .error e
              | .ok (none, k') => .ok (none, k')
              | .ok (some c, k') =>
                  fillLeftover g a pat ls rest (result.set pos (some c)) k'

/-- `PatternGenerator._generate_from_pattern_global`: fill every position
from the global charset restricted to the required class. -/
def patternGlobalFill (g : RandSrc) (a : AnalysisResult) :
    List Char → List Char → Nat → Except String (Option Word × Nat)
  | [], acc, k => .ok (some acc, k)
  | sym :: rest, acc, k =>
      match CharType.ofValue? sym with
      | none => .error "ValueError: not a valid CharType"
      | some t =>
          let chars := a.get_charset_by_type t
          if chars = [] then .ok (none, k)
          else
            match _random_choice g chars k with
            | .error e => .error e
            | .ok (c, k') => patternGlobalFill g a rest (acc ++ [c]) k'

/-- `PatternGenerator._generate_from_pattern`. -/
def _generate_from_pattern (g : RandSrc) (a : AnalysisResult) (max_retries : Nat)
    (pat : List Char) (k : Nat) : Except String (Option Word × Nat) :=
  let length := pat.length
  match alookup a.length_stats length with
  | none => patternGlobalFill g a pat [] k
  | some ls =>
      let has_variety := decide (ls.count > 1)
      let result : List (Option Char) := List.replicate length none
      match _random_choice g (List.range length) k with
      | .error e => .error e
      | .ok (start_pos, k1) =>
          let positions := (List.range length).erase start_pos
          match pat.get? start_pos with
          | none => .error "IndexError"
          | some sym =>
              match CharType.ofValue? sym with
              | none => .error "ValueError: not a valid CharType"
              | some required =>
                  match _get_char_of_type g a start_pos required ls k1 with
                  | .error e => .error e
                  | .ok (none, k2) => .ok (none, k2)
                  | .ok (some start_char, k2) =>
                      match patternFill g a pat ls has_variety max_retries
                          (positions.length * (max_retries + 1) + max_retries + 1)
                          positions 0 (result.set start_pos (some start_char)) k2 with
                      | .error e => .error e
                      | .ok (filled, leftover, k3) =>
                          match fillLeftover g a pat ls leftover filled k3 with
                          | .error e => .error e
                          | .ok (none, k4) => .ok (none, k4)
                          | .ok (some final, k4) => .ok (some (joinFilled final), k4)

/-- `PatternGenerator.generate_from_explicit_pattern` — delegates to
`_generate_from_pattern`. -/
def generate_from_explicit_pattern (g : RandSrc) (a : AnalysisResult)
    (max_retries : Nat) (pat : List Char) (k : Nat) :
    Except String (Option Word × Nat) :=
  _generate_from_pattern g a max_retries pat k

/-! ## `generators/markov.py` — MarkovGenerator -/

/-- The start-of-word sentinel. -/
def MarkovGenerator.START : Char := '\x00'

/-- The end-of-word sentinel. -/
def MarkovGenerator.END : Char := '\x01'

/-- A Markov transition table: context string → next character → count. -/
abbrev MarkovTable := List (List Char × List (Char × Nat))

/-- `s[-n:]` on a Python string (the whole string when `n = 0`). -/
def pyTail {α : Type} (l : List α) (n : Nat) : List α :=
  if n = 0 then l else l.drop (l.length - n)

/-- The context-shortening scan: the first suffix `current[i:]`
(`1 ≤ i < len(current)`) that is a known context. -/
def findShorterContext (trans : MarkovTable) (current : List Char) :
    Option (List Char) :=
  (List.range' 1 (current.length - 1)).findSome? (fun i =>
    match alookup trans (current.drop i) with
    | some _ => some (current.drop i)
    | none => none)

/-- The `if current not in self._transitions:` block at the top of the
generation loop: keep a known context, otherwise the first known shorter
suffix, otherwise nothing (triggering the charset fallback). -/
def markovContext (trans : MarkovTable) (current : List Char) : Option (List Char) :=
  match alookup trans current with
  | some _ => some current
  | none => findShorterContext trans current

/-- The `while len(result) < max_length:` loop of
`MarkovGenerator.generate_one`; `fuel` is `max_length - len(result)`, which
is exactly the remaining iteration budget since every non-breaking pass
emits one character. -/
def markovLoop (g : RandSrc) (a : AnalysisResult) (trans : MarkovTable) (order : Nat) :
    Nat → List Char → List Char → Nat → Except String (List Char × Nat)
  | 0, _, result, k => .ok (result, k)
  | fuel + 1, current, result, k =>
      match markovContext trans current with
      | none =>
          if a.charset ≠ [] then
            match _random_choice g a.charset k with
            | .error e => .error e
            | .ok (c, k') =>
                markovLoop g a trans order fuel (pyTail (current ++ [c]) order)
                  (result ++ [c]) k'
          else .ok (result, k)
      | some cur =>
          let ts := alookupD trans cur []
          if ts = [] then .ok (result, k)
          else
            match _weighted_choice g ts k with
            | .error e => .error e
            | .ok (nc, k') =>
                if nc = MarkovGenerator.END then .ok (result, k')
                else
                  markovLoop g a trans order fuel (pyTail (cur ++ [nc]) order)
                    (result ++ [nc]) k'

/-- `MarkovGenerator.generate_one`: `None` on an empty table; otherwise run
the loop from `order` start sentinels with the length cap
`2 × max(observed lengths)` (20 when no length was observed), returning
`None` when nothing was emitted. -/
def MarkovGenerator.generate_one (g : RandSrc) (a : AnalysisResult)
    (trans : MarkovTable) (order : Nat) (k : Nat) :
    Except String (Option Word × Nat) :=
  if trans = [] then .ok (none, k)
  else
    let current := List.replicate order MarkovGenerator.START
    let max_length :=
      if a.length_stats ≠ [] then pyMaxKeys a.length_stats * 2 else 20
    match markovLoop g a trans order max_length current [] k with
    | .error e => .error e
    | .ok (result, k') => .ok (if result = [] then none else some result, k')

/-! ## `generators/regex_gen.py` — RegexGenerator

The compiled `re` pattern is abstracted as a matcher `M : pattern →
candidate → Bool` standing for `re.compile(pattern).fullmatch(candidate)`;
the generator applies exactly this predicate to its assembled candidate. -/

/-- `range(ord(a), ord(b) + 1)` rendered back to characters. -/
def charRange (a b : Char) : List Char :=
  (List.range' a.toNat (b.toNat + 1 - a.toNat)).map Char.ofNat

/-- `string.digits`. -/
def pyDigits : List Char := charRange '0' '9'

/-- `string.ascii_letters` (lowercase then uppercase). -/
def pyLetters : List Char := charRange 'a' 'z' ++ charRange 'A' 'Z'

/-- `string.punctuation` (the four consecutive ASCII runs). -/
def pyPunct : List Char :=
  charRange '!' '/' ++ charRange ':' '@' ++ charRange '[' '\x60' ++
    charRange '\x7b' '~'

/-- `string.printable`. -/
def pyPrintable : List Char :=
  pyDigits ++ pyLetters ++ pyPunct ++ [' ', '\t', '\n', '\r', '\x0b', '\x0c']

/-- The two-character entries of `RegexGenerator.CHAR_CLASSES`, keyed by the
character following the backslash. -/
def escClass? (c : Char) : Option (List Char) :=
  if c = 'd' then some pyDigits
  else if c = 'w' then some (pyLetters ++ pyDigits ++ ['_'])
  else if c = 's' then some [' ', '\t', '\n', '\r']
  else if c = 'W' then some (pyPunct ++ [' '])
  else if c = 'D' then some (pyLetters ++ pyPunct ++ [' '])
  else if c = 'S' then some (pyLetters ++ pyDigits ++ pyPunct)
  else none

/-- `CHAR_CLASSES['.']`: printable without newline and carriage return. -/
def dotClass : List Char := pyPrintable.filter (fun c => c ≠ '\n' ∧ c ≠ '\r')

/-- A generation quantifier `{'min': _, 'max': _, 'raw': _}`. -/
structure Quant : Type where
  min : Nat
  max : Nat
  raw : List Char
deriving DecidableEq, Repr

/-- One generation instruction produced by `_parse_pattern`.  The escaped
literal (`{'type': 'literal', 'char': c}`) carries no quantifier, hence the
`Option Quant` on literals. -/
inductive Instr : Type where
  | literal (c : Char) (q : Option Quant)
  | cls (chars : List Char) (q : Quant)
  | group (pat : List Char) (q : Quant)
  | alternation (options : List (List Char)) (q : Quant)
deriving DecidableEq, Repr

/-- `instruction.get('quantifier', {'min': 1, 'max': 1})`. -/
def Instr.quant : Instr → Quant
  | .literal _ (some q) => q
  | .literal _ none => ⟨1, 1, []⟩
  | .cls _ q => q
  | .group _ q => q
  | .alternation _ q => q

/-- The numeric value of a decimal digit string. -/
def natOfDigits (s : List Char) : Nat :=
  s.foldl (fun acc c => acc * 10 + (c.toNat - '0'.toNat)) 0

/-- `int(s)` restricted to plain digit strings (the only shape that reaches
these calls from a quantifier accepted by `re.compile`). -/
def parsePyInt (s : List Char) : Except String Nat :=
  if s ≠ [] ∧ s.all Char.isDigit then .ok (natOfDigits s)
  else .error "invalid literal for int"

/-- Python `s.split(sep)` for a one-character separator. -/
def pySplitOn (sep : Char) : List Char → List (List Char)
  | [] => [[]]
  | c :: rest =>
      if c = sep then [] :: pySplitOn sep rest
      else
        match pySplitOn sep rest with
        | [] => [[c]]
        | h :: t => (c :: h) :: t

/-- `pattern.find(c, start)` returning `none` for Python's `-1`. -/
def pyFindFrom (p : List Char) (c : Char) (start : Nat) : Option Nat :=
  ((p.drop start).findIdx? (fun x => x = c)).map (fun i => i + start)

/-- `pattern[a:b]`. -/
def pySlice (p : List Char) (a b : Nat) : List Char := (p.drop a).take (b - a)

/-- `RegexGenerator._get_quantifier`: read a quantifier at `pos`. -/
def _get_quantifier (p : List Char) (pos : Nat) : Except String Quant :=
  match p.get? pos with
  | none => .ok ⟨1, 1, []⟩
  | some c =>
      if c = '?' then .ok ⟨0, 1, ['?']⟩
      else if c = '*' then .ok ⟨0, 10, ['*']⟩
      else if c = '+' then .ok ⟨1, 10, ['+']⟩
      else if c = '\x7b' then
        match pyFindFrom p '\x7d' pos with
        | none => .ok ⟨1, 1, []⟩
        | some e =>
            let qs := pySlice p (pos + 1) e
            let raw := pySlice p pos (e + 1)
            if ',' ∈ qs then
              match (pySplitOn ',' qs).get? 0, (pySplitOn ',' qs).get? 1 with
              | some part0, some part1 =>
                  match (if part0 = [] then .ok 0 else parsePyInt part0 :
                      Except String Nat) with
                  | .error e2 => .error e2
                  | .ok minv =>
                      match (if part1 = [] then .ok (minv + 10) else parsePyInt part1 :
                          Except String Nat) with
                      | .error e2 => .error e2
                      | .ok maxv => .ok ⟨minv, maxv, raw⟩
              | _, _ => .error "IndexError"
            else
              match parsePyInt qs with
              | .error e2 => .error e2
              | .ok v => .ok ⟨v, v, raw⟩
      else .ok ⟨1, 1, []⟩

/-- The body of `_expand_char_class` (ranges first, then escapes, then plain
characters, each consuming 3, 2 or 1 input characters). -/
def expandCharClassLoop : List Char → List Char
  | [] => []
  | c1 :: '-' :: c2 :: rest => charRange c1 c2 ++ expandCharClassLoop rest
  | '\x5c' :: c2 :: rest =>
      (match escClass? c2 with
       | some cs => cs
       | none => [c2]) ++ expandCharClassLoop rest
  | c :: rest => c :: expandCharClassLoop rest

/-- `RegexGenerator._expand_char_class`, including leading-`^` negation
against `string.printable`. -/
def _expand_char_class (content : List Char) : List Char :=
  let negated := content.head? = some '^'
  let content := if negated then content.drop 1 else content
  let result := expandCharClassLoop content
  if negated then pyPrintable.filter (fun c => decide (c ∉ result)) else result

/-- The balanced-parenthesis scan inside `_parse_pattern`'s `(` case:
advance `end` until the depth returns to zero (backslash-escaped
parentheses do not change the depth). -/
def groupScan (p : List Char) : Nat → Nat → Nat → Nat
  | 0, e, _ => e
  | fuel + 1, e, depth =>
      if e < p.length ∧ depth > 0 then
        let depth' :=
          if p.get? e = some '(' ∧ (e = 0 ∨ p.get? (e - 1) ≠ some '\x5c') then depth + 1
          else if p.get? e = some ')' ∧ (e = 0 ∨ p.get? (e - 1) ≠ some '\x5c') then
            depth - 1
          else depth
        groupScan p fuel (e + 1) depth'
      else e

/-- The `while i < len(pattern)` loop of `RegexGenerator._parse_pattern`.
`i` strictly increases on every pass, so `fuel = len(pattern) + 1` never
runs out; the exhaustion error is dead code. -/
def parseLoop (p : List Char) : Nat → Nat → List Instr → Except String (List Instr)
  | 0, _, _ => .error "parse fuel exhausted"
  | fuel + 1, i, acc =>
      if h : i < p.length then
        let char := p.get ⟨i, h⟩
        if char = '^' then parseLoop p fuel (i + 1) acc
        else if char = '$' then parseLoop p fuel (i + 1) acc
        else if char = '\x5c' then
          match p.get? (i + 1) with
          | some next_char =>
              match escClass? next_char with
              | some chars =>
                  match _get_quantifier p (i + 2) with
                  | .error e => .error e
                  | .ok q =>
                      parseLoop p fuel (i + 2 + q.raw.length) (acc ++ [.cls chars q])
              | none => parseLoop p fuel (i + 2) (acc ++ [.literal next_char none])
          | none => parseLoop p fuel (i + 1) acc
        else if char = '[' then
          match pyFindFrom p ']' i with
          | none => .error "Unclosed character class"
          | some e =>
              let chars := _expand_char_class (pySlice p (i + 1) e)
              match _get_quantifier p (e + 1) with
              | .error e2 => .error e2
              | .ok q => parseLoop p fuel (e + 1 + q.raw.length) (acc ++ [.cls chars q])
        else if char = '.' then
          match _get_quantifier p (i + 1) with
          | .error e => .error e
          | .ok q => parseLoop p fuel (i + 1 + q.raw.length) (acc ++ [.cls dotClass q])
        else if char = '?' ∨ char = '*' ∨ char = '+' ∨ char = '\x7b' then
          parseLoop p fuel (i + 1) acc
        else if char = '(' then
          let e := groupScan p (p.length + 1) (i + 1) 1
          let group_content := pySlice p (i + 1) (e - 1)
          match _get_quantifier p e with
          | .error e2 => .error e2
          | .ok q =>
              if '|' ∈ group_content then
                parseLoop p fuel (e + q.raw.length)
                  (acc ++ [.alternation (pySplitOn '|' group_content) q])
              else
                parseLoop p fuel (e + q.raw.length) (acc ++ [.group group_content q])
        else if char = '|' then
          .ok [.alternation [p.take i, p.drop (i + 1)] ⟨1, 1, []⟩]
        else
          match _get_quantifier p (i + 1) with
          | .error e => .error e
          | .ok q => parseLoop p fuel (i + 1 + q.raw.length) (acc ++ [.literal char (some q)])
      else .ok acc

/-- `RegexGenerator._parse_pattern` (run at generator construction; a raised
`ValueError` is a construction failure). -/
def _parse_pattern (p : List Char) : Except String (List Instr) :=
  parseLoop p (p.length + 1) 0 []

/-- `RegexGenerator._filter_by_learned`. -/
def _filter_by_learned (a : AnalysisResult) (use_learned : Bool) (chars : List Char) :
    List Char :=
  if ¬ use_learned then chars
  else
    let filtered := chars.filter (fun c => decide (c ∈ a.charset))
    if filtered ≠ [] then filtered else chars

/-- `list(range(min, max + 1))`. -/
def pyRangeList (a b : Nat) : List Nat := (List.range (b - a)).map (fun i => a + i)

/-- The repetition-count draw at the top of the instruction loop of
`RegexGenerator.generate_one`. -/
def chooseRepCount (g : RandSrc) (q : Quant) (k : Nat) : Except String (Nat × Nat) :=
  if q.min = q.max then .ok (q.min, k)
  else _random_choice g (pyRangeList q.min (q.max + 1)) k

mutual

/-- `RegexGenerator.generate_one` for a generator over `pattern`: parse
(as done at construction), run the instructions, join the parts, and keep
the candidate only if it fully matches the compiled pattern (`M pattern`).
`fuel` bounds the nesting of sub-generators spawned for groups and
alternation branches (each sub-pattern is strictly shorter, so any fuel
above the pattern length is never exhausted). -/
def regexGenerateOne (M : List Char → Word → Bool) (a : AnalysisResult) (g : RandSrc)
    (use_learned : Bool) : Nat → List Char → Nat → Except String (Option Word × Nat)
  | 0, _, _ => .error "sub-generator depth exhausted"
  | fuel + 1, pattern, k =>
      match _parse_pattern pattern with
      | .error e => .error e
      | .ok instrs =>
          match regexRunInstrs M a g use_learned fuel instrs [] k with
          | .error e => .error e
          | .ok (parts, k1) =>
              let generated := parts.flatten
              if M pattern generated then .ok (some generated, k1)
              else .ok (none, k1)
termination_by fuel _ _ => (fuel, 0, 0)

/-- The `for instruction in self._parsed:` loop of `generate_one`. -/
def regexRunInstrs (M : List Char → Word → Bool) (a : AnalysisResult) (g : RandSrc)
    (use_learned : Bool) (fuel : Nat) :
    List Instr → List Word → Nat → Except String (List Word × Nat)
  | [], parts, k => .ok (parts, k)
  | inst :: rest, parts, k =>
      match chooseRepCount g inst.quant k with
      | .error e => .error e
      | .ok (count, k1) =>
          match regexEmitN M a g use_learned fuel inst count parts k1 with
          | .error e => .error e
          | .ok (parts1, k2) => regexRunInstrs M a g use_learned fuel rest parts1 k2
termination_by instrs _ _ => (fuel, 2, instrs.length)

/-- The `for _ in range(count):` body of `generate_one`: emit one literal,
one filtered class draw, or one sub-generation for an alternation branch or
group (empty and failed sub-results fall back exactly as in the source). -/
def regexEmitN (M : List Char → Word → Bool) (a : AnalysisResult) (g : RandSrc)
    (use_learned : Bool) (fuel : Nat) (inst : Instr) :
    Nat → List Word → Nat → Except String (List Word × Nat)
  | 0, parts, k => .ok (parts, k)
  | n + 1, parts, k =>
      match inst with
      | .literal c _ => regexEmitN M a g use_learned fuel inst n (parts ++ [[c]]) k
      | .cls chars _ =>
          let chars1 := _filter_by_learned a use_learned chars
          if chars1 = [] then regexEmitN M a g use_learned fuel inst n parts k
          else
            match _random_choice g chars1 k with
            | .error e => .error e
            | .ok (c, k1) => regexEmitN M a g use_learned fuel inst n (parts ++ [[c]]) k1
      | .alternation options _ =>
          match _random_choice g options k with
          | .error e => .error e
          | .ok (chosen, k1) =>
              match regexGenerateOne M a g use_learned fuel chosen k1 with
              | .error e => .error e
              | .ok (some s, k2) =>
                  if s ≠ [] then regexEmitN M a g use_learned fuel inst n (parts ++ [s]) k2
                  else regexEmitN M a g use_learned fuel inst n (parts ++ [chosen]) k2
              | .ok (none, k2) =>
                  regexEmitN M a g use_learned fuel inst n (parts ++ [chosen]) k2
      | .group pat _ =>
          match regexGenerateOne M a g use_learned fuel pat k with
          | .error e => .error e
          | .ok (some s, k1) =>
              if s ≠ [] then regexEmitN M a g use_learned fuel inst n (parts ++ [s]) k1
              else regexEmitN M a g use_learned fuel inst n parts k1
          | .ok (none, k1) => regexEmitN M a g use_learned fuel inst n parts k1
termination_by n _ _ => (fuel, 1, n)

end

/-! ## Lemmas: counters and the random-choice primitives -/

@[simp] theorem sumValues_nil {κ : Type} : sumValues ([] : List (κ × Nat)) = 0 := rfl

@[simp] theorem sumValues_cons {κ : Type} (a : κ × Nat) (t : List (κ × Nat)) :
    sumValues (a :: t) = a.2 + sumValues t := by
  simp [sumValues]

theorem sumValues_bumpCount {κ : Type} [DecidableEq κ] (l : List (κ × Nat)) (key : κ) :
    sumValues (bumpCount l key) = sumValues l + 1 := by
  induction l with
  | nil => simp [bumpCount]
  | cons hd tl ih =>
      obtain ⟨a, n⟩ := hd
      by_cases hak : a = key
      · simp [bumpCount, hak]; omega
      · simp [bumpCount, hak, ih]; omega

theorem setInsert_ne_nil {α : Type} [DecidableEq α] (l : List α) (a : α) :
    setInsert l a ≠ [] := by
  unfold setInsert
  split
  · intro hl; subst hl; simp_all
  · simp

theorem randomChoice_mem {α : Type} {g : RandSrc} {l : List α} {k : Nat} {x : α}
    {k2 : Nat} (h : _random_choice g l k = .ok (x, k2)) : x ∈ l := by
  cases l with
  | nil => simp [_random_choice] at h
  | cons a t =>
      simp only [_random_choice, Except.ok.injEq, Prod.mk.injEq] at h
      exact h.1 ▸ List.get_mem _ _ _

theorem randomChoice_ok {α : Type} (g : RandSrc) {l : List α} (h : l ≠ []) (k : Nat) :
    ∃ x k2, _random_choice g l k = .ok (x, k2) ∧ x ∈ l := by
  cases l with
  | nil => exact absurd rfl h
  | cons a t => exact ⟨_, _, rfl, List.get_mem _ _ _⟩

theorem cumWalk_mem {κ : Type} :
    ∀ (l : List (κ × Nat)) (r : Nat) (last : κ), cumWalk l r last ∈ last :: keysOf l := by
  intro l
  induction l with
  | nil => intro r last; simp [cumWalk]
  | cons hd tl ih =>
      intro r last
      obtain ⟨a, w⟩ := hd
      simp only [cumWalk]
      by_cases hr : r < w
      · simp [hr, keysOf]
      · rw [if_neg hr]
        rcases List.mem_cons.mp (ih (r - w) a) with h | h
        · simp [keysOf, h]
        · simp only [keysOf] at h ⊢
          simp [List.mem_cons, h]

theorem cumWalk_mem_cons {κ : Type} (a : κ) (w : Nat) (tl : List (κ × Nat)) (r : Nat) :
    cumWalk ((a, w) :: tl) r a ∈ keysOf ((a, w) :: tl) := by
  rcases List.mem_cons.mp (cumWalk_mem ((a, w) :: tl) r a) with h | h
  · rw [h]; simp [keysOf]
  · exact h

theorem weightedChoice_mem {κ : Type} {g : RandSrc} {l : List (κ × Nat)} {k : Nat}
    {x : κ} {k2 : Nat} (h : _weighted_choice g l k = .ok (x, k2)) : x ∈ keysOf l := by
  cases l with
  | nil => simp [_weighted_choice] at h
  | cons hd tl =>
      obtain ⟨a, w⟩ := hd
      simp only [_weighted_choice] at h
      split at h
      · exact randomChoice_mem h
      · simp only [Except.ok.injEq, Prod.mk.injEq] at h
        rw [← h.1]
        exact cumWalk_mem_cons a w tl _

theorem weightedChoice_ok {κ : Type} (g : RandSrc) {l : List (κ × Nat)} (h : l ≠ [])
    (k : Nat) : ∃ x k2, _weighted_choice g l k = .ok (x, k2) ∧ x ∈ keysOf l := by
  cases l with
  | nil => exact absurd rfl h
  | cons hd tl =>
      obtain ⟨a, w⟩ := hd
      simp only [_weighted_choice]
      split
      · obtain ⟨x, k2, hrc, hmem⟩ :=
          randomChoice_ok g (l := keysOf ((a, w) :: tl)) (by simp [keysOf]) k
        exact ⟨x, k2, hrc, hmem⟩
      · exact ⟨_, _, rfl, cumWalk_mem_cons a w tl _⟩

theorem alookup_mem {κ β : Type} [DecidableEq κ] {l : List (κ × β)} {key : κ} {v : β}
    (h : alookup l key = some v) : (key, v) ∈ l := by
  induction l with
  | nil => simp [alookup] at h
  | cons hd tl ih =>
      obtain ⟨a, b⟩ := hd
      simp only [alookup, List.find?_cons] at h ih
      by_cases hak : a = key
      · subst hak
        simp at h
        simp [h]
      · rw [decide_eq_false hak] at h
        exact List.mem_cons_of_mem _ (ih h)

theorem alookup_isSome_of_mem_keys {κ β : Type} [DecidableEq κ] {l : List (κ × β)}
    {key : κ} (h : key ∈ keysOf l) : ∃ v, alookup l key = some v := by
  induction l with
  | nil => simp [keysOf] at h
  | cons hd tl ih =>
      obtain ⟨a, b⟩ := hd
      by_cases hak : a = key
      · subst hak
        exact ⟨b, by simp [alookup, List.find?]⟩
      · simp only [keysOf, List.map_cons, List.mem_cons] at h
        rcases h with h | h
        · exact absurd h.symm hak
        · obtain ⟨v, hv⟩ := ih h
          refine ⟨v, ?_⟩
          simpa [alookup, List.find?_cons, hak] using hv

/-! ## Claim C6 — the `LengthStats` pattern-count invariant -/

theorem add_word_ok {s : LengthStats} {w : Word} (h : w.length = s.length) :
    s.add_word w = .ok { s with count := s.count + 1
                                positions := addCharsToPositions s.positions w
                                patterns := bumpCount s.patterns (typePattern w) } := by
  simp [LengthStats.add_word, h]

theorem add_word_error {s : LengthStats} {w : Word} (h : w.length ≠ s.length) :
    s.add_word w = .error "Word length != expected length" := by
  simp [LengthStats.add_word, h]

theorem addAll_preserves_inv (ws : List Word) :
    ∀ s : LengthStats, sumValues s.patterns = s.count →
      sumValues (s.addAll ws).patterns = (s.addAll ws).count := by
  induction ws with
  | nil => intro s hs; simpa [LengthStats.addAll]
  | cons w rest ih =>
      intro s hs
      show sumValues (LengthStats.addAll _ rest).patterns = _
      by_cases h : w.length = s.length
      · have : (match s.add_word w with
            | .ok s' => s'
            | .error _ => s) =
            { s with count := s.count + 1
                     positions := addCharsToPositions s.positions w
                     patterns := bumpCount s.patterns (typePattern w) } := by
          rw [add_word_ok h]
        simp only [LengthStats.addAll, List.foldl_cons] at ih ⊢
        rw [this]
        exact ih _ (by simp [sumValues_bumpCount, hs])
      · have : (match s.add_word w with
            | .ok s' => s'
            | .error _ => s) = s := by rw [add_word_error h]
        simp only [LengthStats.addAll, List.foldl_cons] at ih ⊢
        rw [this]
        exact ih s hs

/-- C6.  The invariant `sum(patterns.values()) == count` holds after every
sequence of `add_word` calls on a fresh `LengthStats`; an accepted word
bumps `count` by one and contributes exactly one occurrence to exactly one
type pattern, whose length is the word's length `L`; and a word of the
wrong length makes `add_word` raise `ValueError` (returning no new state,
so `count` and `patterns` are unchanged). -/
theorem C6_lengthstats_invariant :
    (∀ (L : Nat) (ws : List Word),
      sumValues ((LengthStats.init L).addAll ws).patterns =
        ((LengthStats.init L).addAll ws).count) ∧
    (∀ (s : LengthStats) (w : Word), w.length = s.length →
      ∃ s2, s.add_word w = .ok s2 ∧ s2.count = s.count + 1 ∧
        sumValues s2.patterns = sumValues s.patterns + 1 ∧
        s2.patterns = bumpCount s.patterns (typePattern w) ∧
        (typePattern w).length = s.length) ∧
    (∀ (s : LengthStats) (w : Word), w.length ≠ s.length →
      s.add_word w = .error "Word length != expected length") := by
  refine ⟨?_, ?_, ?_⟩
  · intro L ws
    exact addAll_preserves_inv ws _ (by simp [LengthStats.init])
  · intro s w h
    refine ⟨_, add_word_ok h, rfl, by simp [sumValues_bumpCount], rfl, ?_⟩
    simpa [typePattern] using h
  · intro s w h
    exact add_word_error h

/-! ## Claim C7 — seeded determinism of `RandomGenerator.generate` -/

theorem randomChoice_congr {g1 g2 : RandSrc} (h : ∀ k0, g1.draw k0 = g2.draw k0)
    {α : Type} (l : List α) (k : Nat) :
    _random_choice g1 l k = _random_choice g2 l k := by
  cases l with
  | nil => rfl
  | cons a t => simp [_random_choice, h]

theorem weightedChoice_congr {g1 g2 : RandSrc} (h : ∀ k0, g1.draw k0 = g2.draw k0)
    {κ : Type} (l : List (κ × Nat)) (k : Nat) :
    _weighted_choice g1 l k = _weighted_choice g2 l k := by
  cases l with
  | nil => rfl
  | cons hd tl =>
      obtain ⟨a, w⟩ := hd
      simp only [_weighted_choice]
      split
      · exact randomChoice_congr h _ _
      · simp [h]

theorem randomFill_congr {g1 g2 : RandSrc} (h : ∀ k0, g1.draw k0 = g2.draw k0)
    (a : AnalysisResult) (upc : Bool) (ls : LengthStats) (hv : Bool) :
    ∀ (ps : List Nat) (chars : List Char) (k : Nat),
      randomFill g1 a upc ls hv ps chars k = randomFill g2 a upc ls hv ps chars k := by
  intro ps
  induction ps with
  | nil => intro chars k; rfl
  | cons p rest ih =>
      intro chars k
      simp only [randomFill, randomChoice_congr h, ih]

theorem randomGenOne_congr {g1 g2 : RandSrc} (h : ∀ k0, g1.draw k0 = g2.draw k0)
    (a : AnalysisResult) (upc : Bool) (k : Nat) :
    RandomGenerator.generate_one g1 a upc k = RandomGenerator.generate_one g2 a upc k := by
  simp only [RandomGenerator.generate_one, _choose_length, weightedChoice_congr h,
    randomFill_congr h]

/-- C7.  With a fixed seed every draw comes from the seeded pseudo-random
stream, so two `RandomGenerator(analysis, seed).generate(count)` runs over
the same analysis agree exactly, whatever the (never consulted)
cryptographic source does in either run. -/
theorem C7_seeded_generate_deterministic :
    ∀ (prng : Nat → Nat → Nat) (sec1 sec2 : Nat → Nat) (s : Nat) (a : AnalysisResult)
      (upc eo : Bool) (orig : List Word) (count maxA k : Nat),
      RandomGenerator.generate (some s) sec1 prng a upc eo orig count maxA k =
        RandomGenerator.generate (some s) sec2 prng a upc eo orig count maxA k := by
  intro prng sec1 sec2 s a upc eo orig count maxA k
  have h : ∀ k0, (mkRandSrc (some s) sec1 prng).draw k0 =
      (mkRandSrc (some s) sec2 prng).draw k0 := by
    intro k0
    simp [mkRandSrc, RandSrc.draw]
  simp only [RandomGenerator.generate]
  congr 1
  funext k0
  exact randomGenOne_congr h a upc k0

/-! ## Claim C3 — regex generation round-trip -/

/-- C3.  Whatever string `RegexGenerator.generate_one` returns (for any
matcher semantics `M` of the compiled pattern, any analysis, any random
stream, any sub-generator budget) has passed the final `fullmatch` against
the original pattern: a candidate failing the full match comes back as
`None`, never as a string. -/
theorem C3_regex_roundtrip :
    ∀ (M : List Char → Word → Bool) (a : AnalysisResult) (g : RandSrc) (ul : Bool)
      (fuel : Nat) (p : List Char) (k : Nat) (s : Word) (k2 : Nat),
      regexGenerateOne M a g ul fuel p k = .ok (some s, k2) → M p s = true := by
  intro M a g ul fuel p k s k2 h
  cases fuel with
  | zero => simp [regexGenerateOne] at h
  | succ fuel =>
      rw [regexGenerateOne] at h
      cases hp : _parse_pattern p with
      | error e => simp only [hp] at h; exact Except.noConfusion h
      | ok instrs =>
          simp only [hp] at h
          cases hr : regexRunInstrs M a g ul fuel instrs [] k with
          | error e => rw [hr] at h; simp at h
          | ok pk =>
              obtain ⟨parts, k1⟩ := pk
              rw [hr] at h
              cases hM : M p parts.flatten with
              | true =>
                  simp only [hM, if_true, Except.ok.injEq, Prod.mk.injEq,
                    Option.some.injEq] at h
                  rw [← h.1]
                  exact hM
              | false => simp [hM] at h

/-! ## Claim C9 — quantifier derivation and repetition counts -/

theorem pySplitOn_no_sep {sep : Char} : ∀ {ds : List Char}, sep ∉ ds →
    pySplitOn sep ds = [ds] := by
  intro ds
  induction ds with
  | nil => intro _; rfl
  | cons c rest ih =>
      intro h
      have hc : ¬ c = sep := fun hcs => h (by simp [hcs])
      have hrest : sep ∉ rest := fun hr => h (List.mem_cons_of_mem _ hr)
      simp [pySplitOn, hc, ih hrest]

theorem pySplitOn_append {sep : Char} : ∀ {ds1 : List Char}, sep ∉ ds1 →
    ∀ (ds2 : List Char), pySplitOn sep (ds1 ++ sep :: ds2) = ds1 :: pySplitOn sep ds2 := by
  intro ds1
  induction ds1 with
  | nil => intro _ ds2; simp [pySplitOn]
  | cons c rest ih =>
      intro h ds2
      have hc : ¬ c = sep := fun hcs => h (by simp [hcs])
      have hrest : sep ∉ rest := fun hr => h (List.mem_cons_of_mem _ hr)
      have := ih hrest ds2
      simp only [List.cons_append, pySplitOn, if_neg hc, List.append_eq, this]

theorem parsePyInt_digits {s : List Char} (h1 : s ≠ []) (h2 : s.all Char.isDigit) :
    parsePyInt s = .ok (natOfDigits s) := by
  simp [parsePyInt, h1, h2]

theorem rangeList_mem {a b x : Nat} (h : x ∈ pyRangeList a b) : a ≤ x ∧ x < b := by
  simp only [pyRangeList, List.mem_map, List.mem_range] at h
  obtain ⟨i, hi, rfl⟩ := h
  omega

/-- C9.  `_get_quantifier` derives exactly the documented quantifiers:
`?` ↦ {0,1}, `*` ↦ {0,10}, `+` ↦ {1,10}, `{m,n}` (decimal numerals) ↦
{m,n}, and anything else (or end of pattern) ↦ {1,1}; and the repetition
count that `generate_one` draws for a quantifier lies in `[min, max]`
whenever `min ≤ max` (every pattern accepted by `re.compile` satisfies
this). -/
theorem C9_quantifiers :
    (∀ (p : List Char) (pos : Nat), p.get? pos = some '?' →
      _get_quantifier p pos = .ok ⟨0, 1, ['?']⟩) ∧
    (∀ (p : List Char) (pos : Nat), p.get? pos = some '*' →
      _get_quantifier p pos = .ok ⟨0, 10, ['*']⟩) ∧
    (∀ (p : List Char) (pos : Nat), p.get? pos = some '+' →
      _get_quantifier p pos = .ok ⟨1, 10, ['+']⟩) ∧
    (∀ (p : List Char) (pos : Nat) (c : Char),
      p.get? pos = none ∨ (p.get? pos = some c ∧
        c ∉ (['?', '*', '+', '\x7b'] : List Char)) →
      _get_quantifier p pos = .ok ⟨1, 1, []⟩) ∧
    (∀ (p : List Char) (pos e : Nat) (ds1 ds2 : List Char),
      p.get? pos = some '\x7b' → pyFindFrom p '\x7d' pos = some e →
      pySlice p (pos + 1) e = ds1 ++ ',' :: ds2 →
      ds1 ≠ [] → ds2 ≠ [] → ds1.all Char.isDigit → ds2.all Char.isDigit →
      ',' ∉ ds1 → ',' ∉ ds2 →
      _get_quantifier p pos =
        .ok ⟨natOfDigits ds1, natOfDigits ds2, pySlice p pos (e + 1)⟩) ∧
    (∀ (g : RandSrc) (q : Quant) (k : Nat), q.min ≤ q.max →
      ∃ c k2, chooseRepCount g q k = .ok (c, k2) ∧ q.min ≤ c ∧ c ≤ q.max) := by
  refine ⟨?_, ?_, ?_, ?_, ?_, ?_⟩
  · intro p pos h
    simp only [_get_quantifier, h]
    simp
  · intro p pos h
    simp only [_get_quantifier, h]
    simp
  · intro p pos h
    simp only [_get_quantifier, h]
    simp
  · intro p pos c h
    rcases h with h | ⟨h, hc⟩
    · simp only [_get_quantifier, h]
    · simp only [List.mem_cons, List.not_mem_nil, or_false, not_or] at hc
      obtain ⟨h1, h2, h3, h4⟩ := hc
      simp only [_get_quantifier, h]
      rw [if_neg h1, if_neg h2, if_neg h3, if_neg h4]
  · intro p pos e ds1 ds2 hget hfind hslice h1 h2 hd1 hd2 hc1 hc2
    have hmem : ',' ∈ pySlice p (pos + 1) e := by
      rw [hslice]; simp
    simp only [_get_quantifier, hget]
    simp only [hfind]
    rw [if_pos hmem]
    simp only [hslice]
    rw [pySplitOn_append hc1, pySplitOn_no_sep hc2]
    simp [h1, h2, parsePyInt_digits h1 hd1, parsePyInt_digits h2 hd2]
  · intro g q k h
    by_cases heq : q.min = q.max
    · exact ⟨q.min, k, by simp [chooseRepCount, heq], le_refl _, by omega⟩
    · have hne : pyRangeList q.min (q.max + 1) ≠ [] := by
        simp only [pyRangeList, ne_eq, List.map_eq_nil_iff, List.range_eq_nil]
        omega
      obtain ⟨x, k2, hrc, hmem⟩ := randomChoice_ok g hne k
      obtain ⟨hx1, hx2⟩ := rangeList_mem hmem
      exact ⟨x, k2, by simp [chooseRepCount, heq, hrc], hx1, by omega⟩

/-! ## Claim C8 — Markov generation terminates within the length cap -/

theorem markovLoop_ok (g : RandSrc) (a : AnalysisResult) (trans : MarkovTable)
    (order : Nat) :
    ∀ (fuel : Nat) (current result : List Char) (k : Nat),
      ∃ res k2, markovLoop g a trans order fuel current result k = .ok (res, k2) ∧
        res.length ≤ result.length + fuel := by
  intro fuel
  induction fuel with
  | zero => intro current result k; exact ⟨result, k, rfl, by omega⟩
  | succ fuel ih =>
      intro current result k
      cases hctx : markovContext trans current with
      | none =>
          simp only [markovLoop, hctx]
          by_cases hcs : a.charset ≠ []
          · rw [if_pos hcs]
            obtain ⟨c, k1, hrc, -⟩ := randomChoice_ok g hcs k
            simp only [hrc]
            obtain ⟨res, k2, hloop, hlen⟩ :=
              ih (pyTail (current ++ [c]) order) (result ++ [c]) k1
            refine ⟨res, k2, hloop, ?_⟩
            simp only [List.length_append, List.length_singleton] at hlen
            omega
          · rw [if_neg hcs]
            exact ⟨result, k, rfl, by omega⟩
      | some cur =>
          simp only [markovLoop, hctx]
          by_cases hts : alookupD trans cur [] = []
          · rw [if_pos hts]
            exact ⟨result, k, rfl, by omega⟩
          · rw [if_neg hts]
            obtain ⟨nc, k1, hwc, -⟩ := weightedChoice_ok g hts k
            simp only [hwc]
            by_cases hend : nc = MarkovGenerator.END
            · rw [if_pos hend]
              exact ⟨result, k1, rfl, by omega⟩
            · rw [if_neg hend]
              obtain ⟨res, k2, hloop, hlen⟩ :=
                ih (pyTail (cur ++ [nc]) order) (result ++ [nc]) k1
              refine ⟨res, k2, hloop, ?_⟩
              simp only [List.length_append, List.length_singleton] at hlen
              omega

/-- C8.  `MarkovGenerator.generate_one` always terminates without raising
(it is a total function and always returns `ok`), and when at least one
length was observed, any non-`None` string it returns has length at most
`2 × max(observed lengths)`: each non-stopping pass of the loop emits
exactly one character and the loop runs at most `max_length` times. -/
theorem C8_markov_bounded :
    ∀ (g : RandSrc) (a : AnalysisResult) (trans : MarkovTable) (order k : Nat),
      ∃ r k2, MarkovGenerator.generate_one g a trans order k = .ok (r, k2) ∧
        (a.length_stats ≠ [] → ∀ s, r = some s →
          s.length ≤ 2 * pyMaxKeys a.length_stats) := by
  intro g a trans order k
  by_cases htr : trans = []
  · exact ⟨none, k, by simp [MarkovGenerator.generate_one, htr], by simp⟩
  · obtain ⟨res, k2, hloop, hlen⟩ := markovLoop_ok g a trans order
      (if a.length_stats ≠ [] then pyMaxKeys a.length_stats * 2 else 20)
      (List.replicate order MarkovGenerator.START) [] k
    refine ⟨if res = [] then none else some res, k2, ?_, ?_⟩
    · simp only [MarkovGenerator.generate_one, if_neg htr]
      rw [hloop]
    · intro hne s hs
      rw [if_neg (by rintro rfl; cases hs)] at hs
      cases hs
      rw [if_pos hne] at hlen
      simp only [List.length_nil, Nat.zero_add] at hlen
      omega

/-! ## Claim C1 — the retry budget of `BaseGenerator.generate` -/

theorem generateLoop_ok (g1 : Nat → Except String (Option Word × Nat)) (count : Nat)
    (ad : Bool) (hg1 : ∀ k0, ∃ r k2, g1 k0 = .ok (r, k2)) :
    ∀ (remaining : Nat) (b : GenBook) (results : List Word) (k : Nat),
      ∃ res b2 k2, generateLoop g1 count ad remaining b results k = .ok (res, b2, k2) ∧
        res.length ≤ max results.length count := by
  intro remaining
  induction remaining with
  | zero => intro b results k; exact ⟨results, b, k, rfl, le_max_left _ _⟩
  | succ remaining ih =>
      intro b results k
      simp only [generateLoop]
      by_cases hlt : results.length < count
      · rw [if_pos hlt]
        obtain ⟨r, k1, hr⟩ := hg1 k
        simp only [hr]
        cases r with
        | none => exact ih b results k1
        | some w =>
            dsimp only
            by_cases hdup : ¬ ad ∧ is_duplicate b w
            · rw [if_pos hdup]
              exact ih b results k1
            · rw [if_neg hdup]
              obtain ⟨res, b2, k2, hloop, hlen⟩ := ih _ (results ++ [w]) k1
              refine ⟨res, b2, k2, hloop, ?_⟩
              simp only [List.length_append, List.length_singleton] at hlen
              omega
      · rw [if_neg hlt]
        exact ⟨results, b, k, rfl, le_max_left _ _⟩

/-- C1 (amended).  `BaseGenerator.generate` defaults a zero `max_attempts`
to `count * 100`, and — provided `generate_one` itself does not raise — it
never raises and returns at most `count` strings, fewer only when the
attempt budget runs out.  (The unamended claim fails: with an empty
`AnalysisResult` the first `generate_one` call raises `ValueError` from
`_choose_length`, which `generate` propagates; see the counterexample.) -/
theorem C1_generate_budget :
    ∀ (g1 : Nat → Except String (Option Word × Nat)) (count max_attempts : Nat)
      (ad : Bool) (b : GenBook) (k : Nat),
      BaseGenerator.generate g1 count 0 ad b k =
        BaseGenerator.generate g1 count (count * 100) ad b k ∧
      ((∀ k0, ∃ r k2, g1 k0 = .ok (r, k2)) →
        ∃ res b2 k2, BaseGenerator.generate g1 count max_attempts ad b k =
          .ok (res, b2, k2) ∧ res.length ≤ count) := by
  intro g1 count maxA ad b k
  constructor
  · simp [BaseGenerator.generate]
  · intro hg1
    simp only [BaseGenerator.generate]
    obtain ⟨res, b2, k2, hloop, hlen⟩ := generateLoop_ok g1 count ad hg1
      (if maxA = 0 then count * 100 else maxA) b [] k
    exact ⟨res, b2, k2, hloop, by simpa using hlen⟩

theorem C1_generate_budget_witness :
    ∃ res b2 k2, BaseGenerator.generate (fun k0 => .ok (some ['x'], k0 + 1)) 2 0 false
      ⟨false, [], []⟩ 0 = .ok (res, b2, k2) ∧ res.length ≤ 2 :=
  (C1_generate_budget (fun k0 => .ok (some ['x'], k0 + 1)) 2 0 false
      ⟨false, [], []⟩ 0).2 (fun k0 => ⟨some ['x'], k0 + 1, rfl⟩)

/-- The analysis result of a successful `analyze_words` run (the error
branch is unreachable, see `C2_analysis_counts`). -/
def analyzeWordsD (minL maxL : Nat) (ws : List Word) : AnalysisResult :=
  match analyze_words minL maxL ws with
  | .ok r => r
  | .error _ => _build_result AnalyzerState.init

/-- C1 counterexample.  Analyzing an empty corpus gives `total_words = 0`,
and `RandomGenerator(analysis, seed=42).generate(1)` then RAISES
`ValueError: Cannot choose from empty weights` (raised by
`_weighted_choice` via `_choose_length` on the first `generate_one` call
and propagated by `generate`), contradicting "never raises an error". -/
theorem C1_cex_empty_analysis_raises :
    (analyzeWordsD 1 256 []).total_words = 0 ∧
    RandomGenerator.generate (some 42) (fun _ => 0) (fun s k0 => s + k0)
      (analyzeWordsD 1 256 []) true true [] 1 0 0 =
      .error "Cannot choose from empty weights" := by
  constructor <;> rfl

/-! ## Lemmas about the analyzer state -/

/-- The structural facts maintained for every `length_stats` entry:
the `length` field is the key, the positions list has one entry per index
`0 .. length-1`, and the key is positive (only non-empty words are
processed). -/
def StatsEntryInv (p : Nat × LengthStats) : Prop :=
  p.2.length = p.1 ∧ p.2.positions.length = p.2.length ∧ 0 < p.1

/-- Invariant of the analyzer state reachable from `_reset`. -/
structure WFState (st : AnalyzerState) : Prop where
  entries : ∀ p ∈ st.length_stats, StatsEntryInv p
  charset_ne : st.length_stats ≠ [] → st.charset ≠ []

theorem addCharsToPositions_length :
    ∀ (ps : List PositionStats) (cs : List Char),
      (addCharsToPositions ps cs).length = ps.length := by
  intro ps
  induction ps with
  | nil => intro cs; cases cs <;> rfl
  | cons p ps ih =>
      intro cs
      cases cs with
      | nil => rfl
      | cons c cs => simp [addCharsToPositions, ih]

theorem addWordAtKey_ok :
    ∀ (l : List (Nat × LengthStats)) (w : Word),
      (∀ p ∈ l, StatsEntryInv p) → w.length ∈ keysOf l →
      ∃ l2, addWordAtKey l w = .ok l2 ∧ keysOf l2 = keysOf l ∧
        (∀ p ∈ l2, StatsEntryInv p) := by
  intro l
  induction l with
  | nil => intro w _ h; simp [keysOf] at h
  | cons hd tl ih =>
      intro w hinv hmem
      obtain ⟨L, ls⟩ := hd
      by_cases hL : L = w.length
      · subst hL
        have hlen : w.length = ls.length :=
          ((hinv (w.length, ls) (List.mem_cons_self _ _)).1).symm
        simp only [addWordAtKey, if_pos rfl, add_word_ok hlen]
        refine ⟨_, rfl, by simp [keysOf], ?_⟩
        intro p hp
        rcases List.mem_cons.mp hp with hp | hp
        · subst hp
          obtain ⟨h1, h2, h3⟩ := hinv _ (List.mem_cons_self _ _)
          exact ⟨h1, by simpa [addCharsToPositions_length] using h2, h3⟩
        · exact hinv _ (List.mem_cons_of_mem _ hp)
      · have hmem' : w.length ∈ keysOf tl := by
          simp only [keysOf, List.map_cons, List.mem_cons] at hmem
          rcases hmem with h | h
          · exact absurd h.symm hL
          · simpa [keysOf] using h
        obtain ⟨l2, h2, hk, hi⟩ := ih w (fun p hp => hinv p (List.mem_cons_of_mem _ hp)) hmem'
        refine ⟨(L, ls) :: l2, ?_, ?_, ?_⟩
        · simp only [addWordAtKey, if_neg hL, h2]
        · simp only [keysOf, List.map_cons] at hk ⊢
          rw [hk]
        · intro p hp
          rcases List.mem_cons.mp hp with hp | hp
          · subst hp; exact hinv _ (List.mem_cons_self _ _)
          · exact hi _ hp

/-! Co-occurrence monotonicity and completeness through the per-word fold. -/

theorem Cooc.add_subset (cc : Cooc) (c : Char) (i j : Nat) (d : Char)
    (c' : Char) (i' j' : Nat) : cc c' i' j' ⊆ (cc.add c i j d) c' i' j' := by
  unfold Cooc.add
  split
  · exact Finset.subset_insert _ _
  · exact Finset.Subset.refl _

theorem Cooc.add_self_mem (cc : Cooc) (c : Char) (i j : Nat) (d : Char) :
    d ∈ (cc.add c i j d) c i j := by
  unfold Cooc.add
  rw [if_pos ⟨rfl, rfl, rfl⟩]
  exact Finset.mem_insert_self _ _

theorem coocInner_subset (c : Char) (i : Nat) :
    ∀ (L : List (Nat × Char)) (cc : Cooc) (c' : Char) (i' j' : Nat),
      cc c' i' j' ⊆ (L.foldl (coocStep c i) cc) c' i' j' := by
  intro L
  induction L with
  | nil => intro cc c' i' j'; exact Finset.Subset.refl _
  | cons jd L ih =>
      intro cc c' i' j'
      refine Finset.Subset.trans ?_ (ih (coocStep c i cc jd) c' i' j')
      unfold coocStep
      split
      · exact Cooc.add_subset _ _ _ _ _ _ _ _
      · exact Finset.Subset.refl _

theorem coocInner_mem (c : Char) (i : Nat) :
    ∀ (L : List (Nat × Char)) (cc : Cooc) (j : Nat) (d : Char),
      (j, d) ∈ L → i ≠ j → d ∈ (L.foldl (coocStep c i) cc) c i j := by
  intro L
  induction L with
  | nil => intro cc j d h; simp at h
  | cons jd L ih =>
      intro cc j d hmem hij
      rcases List.mem_cons.mp hmem with h | h
      · subst h
        refine coocInner_subset c i L _ c i j ?_
        simp only [coocStep, if_pos (by simpa using hij)]
        exact Cooc.add_self_mem _ _ _ _ _
      · exact ih (coocStep c i cc jd) j d h hij

theorem coocOuter_subset (w : Word) :
    ∀ (L : List (Nat × Char)) (cc : Cooc) (c' : Char) (i' j' : Nat),
      cc c' i' j' ⊆ (L.foldl (coocOuterStep w) cc) c' i' j' := by
  intro L
  induction L with
  | nil => intro cc c' i' j'; exact Finset.Subset.refl _
  | cons ic L ih =>
      intro cc c' i' j'
      exact Finset.Subset.trans (coocInner_subset ic.2 ic.1 w.enum cc c' i' j')
        (ih (coocOuterStep w cc ic) c' i' j')

theorem coocOuter_mem (w : Word) :
    ∀ (L : List (Nat × Char)) (cc : Cooc) (i : Nat) (c : Char) (j : Nat) (d : Char),
      (i, c) ∈ L → (j, d) ∈ w.enum → i ≠ j →
      d ∈ (L.foldl (coocOuterStep w) cc) c i j := by
  intro L
  induction L with
  | nil => intro cc i c j d h; simp at h
  | cons ic L ih =>
      intro cc i c j d hic hjd hij
      rcases List.mem_cons.mp hic with h | h
      · subst h
        exact coocOuter_subset w L _ c i j (coocInner_mem c i w.enum cc j d hjd hij)
      · exact ih (coocOuterStep w cc ic) i c j d h hjd hij

/-- Projections of the per-character fold of `_process_word`: it only
touches `charset`, the global frequency tables, and the co-occurrence
index. -/
theorem charFold_proj (w : Word) :
    ∀ (L : List (Nat × Char)) (st : AnalyzerState),
      (L.foldl (charStep w) st).words = st.words ∧
      (L.foldl (charStep w) st).unique_words = st.unique_words ∧
      (L.foldl (charStep w) st).length_stats = st.length_stats ∧
      (L.foldl (charStep w) st).cooccurrence =
        L.foldl (coocOuterStep w) st.cooccurrence := by
  intro L
  induction L with
  | nil => intro st; exact ⟨rfl, rfl, rfl, rfl⟩
  | cons ic L ih =>
      intro st
      simpa [charStep] using ih (charStep w st ic)

theorem charFold_charset_ne (w : Word) :
    ∀ (L : List (Nat × Char)) (st : AnalyzerState),
      st.charset ≠ [] ∨ L ≠ [] → (L.foldl (charStep w) st).charset ≠ [] := by
  intro L
  induction L with
  | nil =>
      intro st h
      rcases h with h | h
      · exact h
      · exact absurd rfl h
  | cons ic L ih =>
      intro st _
      exact ih (charStep w st ic) (Or.inl (by simp [charStep, setInsert_ne_nil]))

/-- The effects of `_process_word` on a well-formed state: it succeeds,
appends the word, inserts it into the unique set, keeps the invariant, and
only grows the co-occurrence index — recording in particular every ordered
pair of distinct positions of the processed word. -/
theorem process_word_spec (st : AnalyzerState) (w : Word) (hw : w ≠ [])
    (hinv : WFState st) :
    ∃ st2, _process_word st w = .ok st2 ∧ WFState st2 ∧
      st2.words = st.words ++ [w] ∧
      st2.unique_words = setInsert st.unique_words w ∧
      st2.length_stats ≠ [] ∧
      (∀ c i j, st.cooccurrence c i j ⊆ st2.cooccurrence c i j) ∧
      (∀ i j (hi : i < w.length) (hj : j < w.length), i ≠ j →
        w.get ⟨j, hj⟩ ∈ st2.cooccurrence (w.get ⟨i, hi⟩) i j) := by
  have hw0 : 0 < w.length := List.length_pos.mpr hw
  -- the stats list after the get-or-create step
  set stats0 : List (Nat × LengthStats) :=
    match alookup st.length_stats w.length with
    | some _ => st.length_stats
    | none => st.length_stats ++ [(w.length, LengthStats.init w.length)] with hstats0
  have hinv0 : ∀ p ∈ stats0, StatsEntryInv p := by
    rw [hstats0]
    cases halk : alookup st.length_stats w.length with
    | some v => exact hinv.entries
    | none =>
        intro p hp
        rcases List.mem_append.mp hp with hp | hp
        · exact hinv.entries p hp
        · simp only [List.mem_singleton] at hp
          subst hp
          exact ⟨rfl, by simp [LengthStats.init], hw0⟩
  have hmem0 : w.length ∈ keysOf stats0 := by
    rw [hstats0]
    cases halk : alookup st.length_stats w.length with
    | some v => exact List.mem_map_of_mem _ (alookup_mem halk)
    | none => simp [keysOf]
  obtain ⟨stats1, hadd, hkeys, hinv1⟩ := addWordAtKey_ok stats0 w hinv0 hmem0
  have hne1 : stats1 ≠ [] := by
    intro hnil
    rw [hnil] at hkeys
    rw [← hkeys] at hmem0
    simp [keysOf] at hmem0
  have hrun : _process_word st w = .ok (w.enum.foldl (charStep w)
      { st with
          words := st.words ++ [w]
          unique_words := setInsert st.unique_words w
          length_stats := stats1 }) := by
    rw [hstats0] at hadd
    simp only [_process_word]
    rw [hadd]
  refine ⟨_, hrun, ?_, ?_, ?_, ?_, ?_, ?_⟩
  · constructor
    · intro p hp
      rw [(charFold_proj w w.enum _).2.2.1] at hp
      exact hinv1 p hp
    · intro _
      exact charFold_charset_ne w w.enum _ (Or.inr (by simpa [List.enum_eq_nil] using hw))
  · rw [(charFold_proj w w.enum _).1]
  · rw [(charFold_proj w w.enum _).2.1]
  · rw [(charFold_proj w w.enum _).2.2.1]
    exact hne1
  · intro c i j
    rw [(charFold_proj w w.enum _).2.2.2]
    exact coocOuter_subset w w.enum _ c i j
  · intro i j hi hj hij
    rw [(charFold_proj w w.enum _).2.2.2]
    refine coocOuter_mem w w.enum _ i _ j _ ?_ ?_ hij
    · exact List.mk_mem_enum_iff_get?.mpr (List.get?_eq_get hi)
    · exact List.mk_mem_enum_iff_get?.mpr (List.get?_eq_get hj)

/-! ## The analysis stream: invariants, counts, co-occurrence -/

theorem specRetained_cons_skip_empty {minL maxL : Nat} {line : Word}
    (h : pyStrip line = []) (rest : List Word) :
    specRetained minL maxL (line :: rest) = specRetained minL maxL rest := by
  simp [specRetained, List.filterMap_cons, h]

theorem specRetained_cons_skip_len {minL maxL : Nat} {line : Word}
    (h2 : pyStrip line ≠ [])
    (h3 : (pyStrip line).length < minL ∨ maxL < (pyStrip line).length)
    (rest : List Word) :
    specRetained minL maxL (line :: rest) = specRetained minL maxL rest := by
  simp [specRetained, List.filterMap_cons, h2, h3]

theorem specRetained_cons_keep {minL maxL : Nat} {line : Word}
    (h2 : pyStrip line ≠ [])
    (h3 : ¬ ((pyStrip line).length < minL ∨ maxL < (pyStrip line).length))
    (rest : List Word) :
    specRetained minL maxL (line :: rest) =
      pyStrip line :: specRetained minL maxL rest := by
  simp [specRetained, List.filterMap_cons, h2, h3]

theorem analyze_stream_spec (minL maxL : Nat) :
    ∀ (W : List Word) (st : AnalyzerState), WFState st →
      ∃ st2, _analyze_stream minL maxL st W = .ok st2 ∧ WFState st2 ∧
        st2.words = st.words ++ specRetained minL maxL W ∧
        st2.unique_words = (specRetained minL maxL W).foldl setInsert st.unique_words ∧
        ((st.length_stats ≠ [] ∨ specRetained minL maxL W ≠ []) →
          st2.length_stats ≠ []) ∧
        (∀ c i j, st.cooccurrence c i j ⊆ st2.cooccurrence c i j) ∧
        (∀ w ∈ specRetained minL maxL W, ∀ i j (hi : i < w.length) (hj : j < w.length),
          i ≠ j → w.get ⟨j, hj⟩ ∈ st2.cooccurrence (w.get ⟨i, hi⟩) i j) := by
  intro W
  induction W with
  | nil =>
      intro st hinv
      refine ⟨st, rfl, hinv, by simp [specRetained], by simp [specRetained], ?_,
        fun c i j => Finset.Subset.refl _, ?_⟩
      · intro h
        rcases h with h | h
        · exact h
        · exact absurd rfl h
      · intro w hw
        simp [specRetained] at hw
  | cons line rest ih =>
      intro st hinv
      by_cases h1 : pyStrip line = []
      · obtain ⟨st2, hrun, hinv2, hwords, huniq, hne, hmono, hper⟩ := ih st hinv
        refine ⟨st2, ?_, hinv2, ?_, ?_, ?_, hmono, ?_⟩
        · simp only [_analyze_stream]
          rw [if_pos h1]
          exact hrun
        · rw [specRetained_cons_skip_empty h1 rest]
          exact hwords
        · rw [specRetained_cons_skip_empty h1 rest]
          exact huniq
        · rw [specRetained_cons_skip_empty h1 rest]
          exact hne
        · rw [specRetained_cons_skip_empty h1 rest]
          exact hper
      · by_cases h3 : (pyStrip line).length < minL ∨ maxL < (pyStrip line).length
        · obtain ⟨st2, hrun, hinv2, hwords, huniq, hne, hmono, hper⟩ := ih st hinv
          refine ⟨st2, ?_, hinv2, ?_, ?_, ?_, hmono, ?_⟩
          · simp only [_analyze_stream]
            rw [if_neg h1, if_pos h3]
            exact hrun
          · rw [specRetained_cons_skip_len h1 h3 rest]
            exact hwords
          · rw [specRetained_cons_skip_len h1 h3 rest]
            exact huniq
          · rw [specRetained_cons_skip_len h1 h3 rest]
            exact hne
          · rw [specRetained_cons_skip_len h1 h3 rest]
            exact hper
        · obtain ⟨stm, hrunp, hinvm, hwordsm, huniqm, hnem, hmonom, hperm⟩ :=
            process_word_spec st (pyStrip line) h1 hinv
          obtain ⟨st2, hrun, hinv2, hwords, huniq, hne, hmono, hper⟩ := ih stm hinvm
          refine ⟨st2, ?_, hinv2, ?_, ?_, ?_, ?_, ?_⟩
          · simp only [_analyze_stream]
            rw [if_neg h1, if_neg h3, hrunp]
            exact hrun
          · rw [specRetained_cons_keep h1 h3 rest, hwords, hwordsm]
            simp
          · rw [specRetained_cons_keep h1 h3 rest, List.foldl_cons, huniq, huniqm]
          · intro _
            exact hne (Or.inl hnem)
          · intro c i j
            exact Finset.Subset.trans (hmonom c i j) (hmono c i j)
          · intro w hw i j hi hj hij
            rw [specRetained_cons_keep h1 h3 rest] at hw
            rcases List.mem_cons.mp hw with hw | hw
            · subst hw
              exact hmono _ _ _ (hperm i j hi hj hij)
            · exact hper w hw i j hi hj hij

theorem WFState_init : WFState AnalyzerState.init := by
  constructor
  · intro p hp
    simp [AnalyzerState.init] at hp
  · intro h
    exact absurd rfl h

theorem foldl_setInsert_spec {α : Type} [DecidableEq α] :
    ∀ (ws : List α) (l : List α), l.Nodup →
      (ws.foldl setInsert l).Nodup ∧
      (ws.foldl setInsert l).toFinset = l.toFinset ∪ ws.toFinset := by
  intro ws
  induction ws with
  | nil => intro l h; simpa using h
  | cons w rest ih =>
      intro l h
      have hset : (setInsert l w).Nodup := by
        by_cases hmem : w ∈ l
        · simpa [setInsert, hmem] using h
        · rw [setInsert, if_neg hmem, List.nodup_append]
          exact ⟨h, List.nodup_singleton _, by simpa [List.disjoint_singleton] using hmem⟩
      have hsetfin : (setInsert l w).toFinset = insert w l.toFinset := by
        by_cases hmem : w ∈ l
        · rw [setInsert, if_pos hmem, Finset.insert_eq_self.mpr (List.mem_toFinset.mpr hmem)]
        · rw [setInsert, if_neg hmem]
          simp only [List.toFinset_append, List.toFinset_cons, List.toFinset_nil]
          rw [Finset.union_comm]
          simp [Finset.insert_eq]
      obtain ⟨hnd, hfin⟩ := ih (setInsert l w) hset
      refine ⟨hnd, ?_⟩
      rw [List.foldl_cons] at *
      rw [hfin, hsetfin, List.toFinset_cons, Finset.insert_union, Finset.union_insert]

/-- C2.  `analyze_words` never fails, and the result's `total_words` is the
number of input entries retained after stripping, empty-skip and the length
window, while `unique_words` is the cardinality of the set of retained
entries. -/
theorem C2_analysis_counts :
    ∀ (minL maxL : Nat) (W : List Word), ∃ r, analyze_words minL maxL W = .ok r ∧
      r.total_words = (specRetained minL maxL W).length ∧
      r.unique_words = (specRetained minL maxL W).toFinset.card := by
  intro minL maxL W
  obtain ⟨st2, hrun, hinv2, hwords, huniq, -, -, -⟩ :=
    analyze_stream_spec minL maxL W AnalyzerState.init WFState_init
  refine ⟨_build_result st2, ?_, ?_, ?_⟩
  · simp only [analyze_words]
    rw [hrun]
  · show st2.words.length = _
    rw [hwords]
    simp [AnalyzerState.init]
  · show st2.unique_words.length = _
    rw [huniq]
    obtain ⟨hnd, hfin⟩ := foldl_setInsert_spec (specRetained minL maxL W)
      AnalyzerState.init.unique_words (by simp [AnalyzerState.init])
    have := List.toFinset_card_of_nodup hnd
    rw [hfin] at this
    simp only [AnalyzerState.init] at this
    simpa using this.symm

/-- C5.  Every ordered pair of distinct positions of every retained word is
recorded in the co-occurrence index — if `c` sits at position `i` and `d`
at position `j ≠ i` of the same word then `d ∈ cooc[c][i][j]` — and the
spec's concrete example over `["abc", "abd", "aec"]` holds exactly. -/
theorem C5_cooccurrence :
    (∀ (minL maxL : Nat) (W : List Word) (r : AnalysisResult),
      analyze_words minL maxL W = .ok r →
      ∀ w ∈ specRetained minL maxL W,
        ∀ i j (hi : i < w.length) (hj : j < w.length), i ≠ j →
          w.get ⟨j, hj⟩ ∈ r.cooccurrence (w.get ⟨i, hi⟩) i j) ∧
    (analyzeWordsD 1 256 [['a', 'b', 'c'], ['a', 'b', 'd'], ['a', 'e', 'c']]).cooccurrence
      'a' 0 1 = {'b', 'e'} ∧
    (analyzeWordsD 1 256 [['a', 'b', 'c'], ['a', 'b', 'd'], ['a', 'e', 'c']]).cooccurrence
      'a' 0 2 = {'c', 'd'} := by
  refine ⟨?_, by decide, by decide⟩
  intro minL maxL W r hr w hw i j hi hj hij
  obtain ⟨st2, hrun, -, -, -, -, -, hper⟩ :=
    analyze_stream_spec minL maxL W AnalyzerState.init WFState_init
  simp only [analyze_words] at hr
  rw [hrun] at hr
  cases hr
  exact hper w hw i j hi hj hij

/-! ## Claim C10 — totality of `SmartGenerator.generate_one` -/

/-- Invariants of every `AnalysisResult` produced by `analyze_words`. -/
structure WFAnalysis (a : AnalysisResult) : Prop where
  entries : ∀ p ∈ a.length_stats, StatsEntryInv p
  charset_ne : a.length_stats ≠ [] → a.charset ≠ []

theorem analyze_words_wf {minL maxL : Nat} {W : List Word} {r : AnalysisResult}
    (h : analyze_words minL maxL W = .ok r) : WFAnalysis r := by
  obtain ⟨st2, hrun, hinv2, -, -, -, -, -⟩ :=
    analyze_stream_spec minL maxL W AnalyzerState.init WFState_init
  simp only [analyze_words] at h
  rw [hrun] at h
  cases h
  exact ⟨hinv2.entries, hinv2.charset_ne⟩

theorem keysOf_map_pair {α β : Type} (l : List α) (f : α → β) :
    keysOf (l.map (fun c => (c, f c))) = l := by
  induction l with
  | nil => rfl
  | cons c t ih => simpa [keysOf] using ih

theorem keysOf_map_fst {α β γ : Type} (l : List (α × β)) (f : α × β → γ) :
    keysOf (l.map (fun p => (p.1, f p))) = keysOf l := by
  induction l with
  | nil => rfl
  | cons c t ih => simpa [keysOf] using ih

theorem coocFilterStep_subset (a : AnalysisResult) (target_pos : Nat) :
    ∀ (L : List (Nat × Option Char)) (cand : List Char) (x : Char),
      x ∈ L.foldl (coocFilterStep a target_pos) cand → x ∈ cand := by
  intro L
  induction L with
  | nil => intro cand x h; exact h
  | cons pc L ih =>
      intro cand x h
      have := ih (coocFilterStep a target_pos cand pc) x h
      unfold coocFilterStep at this
      rcases pc with ⟨j, oc⟩
      cases oc with
      | none => exact this
      | some c =>
          simp only at this
          split at this
          · exact this
          · exact (List.mem_filter.mp this).1

theorem find_compatible_lt {a : AnalysisResult} {current : List (Option Char)}
    {target_pos : Nat} {ls : LengthStats}
    (h : _find_compatible_chars a current target_pos ls ≠ []) :
    target_pos < ls.positions.length := by
  by_contra hlt
  exact h (by simp [_find_compatible_chars, hlt])

theorem smartStartChar_ok (g : RandSrc) (a : AnalysisResult) (ls : LengthStats)
    (hv : Bool) (start_pos k : Nat) (hcs : a.charset ≠ []) :
    ∃ c k2, smartStartChar g a ls hv start_pos k = .ok (c, k2) := by
  unfold smartStartChar
  split
  · next h =>
      split
      · next hlen =>
          obtain ⟨c, k2, hwc, -⟩ := weightedChoice_ok g
            (l := (ls.positions.get ⟨start_pos, h.2⟩).char_counts)
            (by intro hnil; rw [hnil] at hlen; simp at hlen) k
          exact ⟨c, k2, hwc⟩
      · obtain ⟨c, k2, hrc, -⟩ := randomChoice_ok g hcs k
        exact ⟨c, k2, hrc⟩
  · obtain ⟨c, k2, hrc, -⟩ := randomChoice_ok g hcs k
    exact ⟨c, k2, hrc⟩

theorem smartCompatible_lt {a : AnalysisResult} {ls : LengthStats} {hv : Bool}
    {result : List (Option Char)} {pos : Nat}
    (h : smartCompatible a ls hv result pos ≠ []) : pos < ls.positions.length := by
  unfold smartCompatible at h
  by_cases hb : hv = true
  · rw [if_pos hb] at h
    exact find_compatible_lt h
  · rw [if_neg hb] at h
    exact absurd rfl h

theorem smartFillChar_ok (g : RandSrc) (a : AnalysisResult) (ls : LengthStats)
    (hv : Bool) (result : List (Option Char)) (pos k : Nat) (hcs : a.charset ≠ []) :
    ∃ c k2, smartFillChar g a ls hv result pos k = .ok (c, k2) := by
  unfold smartFillChar
  split
  · next hcond =>
      have hlt : pos < ls.positions.length := smartCompatible_lt hcond.1
      rw [(List.get?_eq_get hlt : ls.positions.get? pos = _)]
      obtain ⟨c, k2, hwc, -⟩ := weightedChoice_ok g
        (l := (smartCompatible a ls hv result pos).map
          (fun c => (c, alookupD (ls.positions.get ⟨pos, hlt⟩).char_counts c 1)))
        (by simpa using hcond.1) k
      exact ⟨c, k2, hwc⟩
  · split
    · next h =>
        split
        · next hlen =>
            obtain ⟨c, k2, hwc, -⟩ := weightedChoice_ok g
              (l := (ls.positions.get ⟨pos, h.2⟩).char_counts)
              (by intro hnil; rw [hnil] at hlen; simp at hlen) k
            exact ⟨c, k2, hwc⟩
        · obtain ⟨c, k2, hrc, -⟩ := randomChoice_ok g hcs k
          exact ⟨c, k2, hrc⟩
    · obtain ⟨c, k2, hrc, -⟩ := randomChoice_ok g hcs k
      exact ⟨c, k2, hrc⟩

theorem joinFilled_length :
    ∀ (l : List (Option Char)), (∀ oc ∈ l, oc.isSome) → (joinFilled l).length = l.length := by
  intro l
  induction l with
  | nil => intro _; rfl
  | cons oc t ih =>
      intro h
      cases oc with
      | none => exact absurd (h none (List.mem_cons_self _ _)) (by simp)
      | some c =>
          simpa [joinFilled] using ih (fun x hx => h x (List.mem_cons_of_mem _ hx))

theorem smartFill_spec (g : RandSrc) (a : AnalysisResult) (ls : LengthStats)
    (hv : Bool) (hcs : a.charset ≠ []) :
    ∀ (n : Nat) (positions : List Nat), positions.length = n →
      ∀ (result : List (Option Char)) (k : Nat), positions.Nodup →
      (∀ i (hi : i < result.length), i ∉ positions → (result.get ⟨i, hi⟩).isSome) →
      ∃ res k2, smartFill g a ls hv positions.length positions result k = .ok (res, k2) ∧
        res.length = result.length ∧ (∀ oc ∈ res, oc.isSome) := by
  intro n
  induction n with
  | zero =>
      intro positions hlen result k hnd hfill
      obtain rfl := List.length_eq_zero.mp hlen
      refine ⟨result, k, rfl, rfl, ?_⟩
      intro oc hoc
      obtain ⟨i, hi⟩ := List.get_of_mem hoc
      exact hi ▸ hfill i.1 i.2 (by simp)
  | succ n ih =>
      intro positions hlen result k hnd hfill
      cases positions with
      | nil => simp at hlen
      | cons p ps =>
          have hps : ps.length = n := by simpa using hlen
          simp only [List.length_cons, smartFill]
          obtain ⟨pos, k1, hrc, hposmem⟩ :=
            randomChoice_ok g (l := p :: ps) (by simp) k
          rw [hrc]
          dsimp only
          obtain ⟨c, k2, hfc⟩ := smartFillChar_ok g a ls hv result pos k1 hcs
          rw [hfc]
          dsimp only
          have herase_len : ((p :: ps).erase pos).length = n := by
            rw [List.length_erase_of_mem hposmem]
            simpa using hlen
          have hinv2 : ∀ i (hi : i < (result.set pos (some c)).length),
              i ∉ (p :: ps).erase pos →
              ((result.set pos (some c)).get ⟨i, hi⟩).isSome := by
            intro i hi hnotin
            by_cases hip : i = pos
            · subst hip
              rw [List.get_set_eq]
              rfl
            · rw [List.get_set_ne (fun h => hip h.symm) _]
              refine hfill i (by simpa using hi) ?_
              intro hmem
              exact hnotin ((List.mem_erase_of_ne hip).mpr hmem)
          obtain ⟨res, k3, hrun, hle, hsome⟩ := ih ((p :: ps).erase pos) herase_len
            (result.set pos (some c)) k2 (hnd.erase pos) hinv2
          rw [herase_len] at hrun
          rw [hps]
          exact ⟨res, k3, hrun, by simpa [List.length_set] using hle, hsome⟩

/-- C10.  On an analysis with at least one retained word,
`SmartGenerator.generate_one` never returns `None` (and never raises): the
chosen length is always a key of `length_stats`, every position-filling
branch falls back to a draw from the non-empty global charset, and the
returned string's length is one of the observed word lengths. -/
theorem C10_smart_never_none :
    ∀ (minL maxL : Nat) (W : List Word) (r : AnalysisResult) (g : RandSrc) (k : Nat),
      analyze_words minL maxL W = .ok r → r.length_stats ≠ [] →
      ∃ s k2, SmartGenerator.generate_one g r k = .ok (some s, k2) ∧
        s.length ∈ keysOf r.length_stats := by
  intro minL maxL W r g k hr hne
  have hwf := analyze_words_wf hr
  have hcs : r.charset ≠ [] := hwf.charset_ne hne
  have hwne : r.length_stats.map (fun p => (p.1, p.2.count)) ≠ [] := by
    simpa using hne
  obtain ⟨L, k1, hwc, hLmem⟩ := weightedChoice_ok g hwne k
  have hLkeys : L ∈ keysOf r.length_stats := by
    rwa [keysOf_map_fst] at hLmem
  obtain ⟨ls, hls⟩ := alookup_isSome_of_mem_keys hLkeys
  obtain ⟨hlen_eq, hpos_len, hLpos⟩ := hwf.entries _ (alookup_mem hls)
  simp only at hlen_eq hpos_len hLpos
  have hrange : (List.range L) ≠ [] := by
    simp [List.range_eq_nil]
    omega
  obtain ⟨start_pos, k2, hrc2, hsp⟩ := randomChoice_ok g hrange k1
  have hsplt : start_pos < L := List.mem_range.mp hsp
  obtain ⟨start_char, k3, hstart⟩ :=
    smartStartChar_ok g r ls (decide (ls.count > 1)) start_pos k2 hcs
  have hfill0 : ∀ i (hi : i < ((List.replicate L (none : Option Char)).set start_pos
      (some start_char)).length), i ∉ (List.range L).erase start_pos →
      (((List.replicate L (none : Option Char)).set start_pos
        (some start_char)).get ⟨i, hi⟩).isSome := by
    intro i hi hnotin
    have hiL : i < L := by simpa [List.length_set] using hi
    by_cases hip : i = start_pos
    · subst hip
      rw [List.get_set_eq]
      rfl
    · exact absurd ((List.mem_erase_of_ne hip).mpr (List.mem_range.mpr hiL)) hnotin
  obtain ⟨res, k4, hrun, hreslen, hsome⟩ :=
    smartFill_spec g r ls (decide (ls.count > 1)) hcs
      ((List.range L).erase start_pos).length ((List.range L).erase start_pos) rfl
      ((List.replicate L none).set start_pos (some start_char)) k3
      ((List.nodup_range _).erase _) hfill0
  refine ⟨joinFilled res, k4, ?_, ?_⟩
  · simp only [SmartGenerator.generate_one, _choose_length]
    rw [hwc]
    simp only [hls]
    rw [hrc2]
    simp only [hstart]
    rw [hrun]
  · rw [joinFilled_length res hsome, hreslen]
    simpa [List.length_set] using hLkeys

/-! ## Claim C4 — `generate_from_explicit_pattern` respects the pattern -/

theorem get_chars_by_type_spec (ps : PositionStats) (t : CharType) :
    ∀ x ∈ ps.get_chars_by_type t, CharType.from_char x = t := by
  intro x hx
  simpa using (List.mem_filter.mp hx).2

theorem get_charset_by_type_spec (a : AnalysisResult) (t : CharType) :
    ∀ x ∈ a.get_charset_by_type t, CharType.from_char x = t := by
  intro x hx
  simpa using (List.mem_filter.mp hx).2

theorem get_char_of_type_ok (g : RandSrc) (a : AnalysisResult) (pos : Nat)
    (t : CharType) (ls : LengthStats) (k : Nat) :
    ∃ res k2, _get_char_of_type g a pos t ls k = .ok (res, k2) ∧
      ∀ c, res = some c → CharType.from_char c = t := by
  unfold _get_char_of_type
  split
  · next h =>
      dsimp only
      by_cases hempty : (if (ls.positions.get ⟨pos, h⟩).get_chars_by_type t = [] then
          a.get_charset_by_type t else (ls.positions.get ⟨pos, h⟩).get_chars_by_type t) = []
      · rw [if_pos hempty]
        exact ⟨none, k, rfl, by simp⟩
      · rw [if_neg hempty]
        obtain ⟨c, k2, hwc, hcm⟩ := weightedChoice_ok g
          (l := (if (ls.positions.get ⟨pos, h⟩).get_chars_by_type t = [] then
            a.get_charset_by_type t else
            (ls.positions.get ⟨pos, h⟩).get_chars_by_type t).map
            (fun c => (c, alookupD (ls.positions.get ⟨pos, h⟩).char_counts c 1)))
          (by simpa using hempty) k
        rw [hwc]
        refine ⟨some c, k2, rfl, ?_⟩
        intro c2 hc2
        cases hc2
        rw [keysOf_map_pair] at hcm
        by_cases h0 : (ls.positions.get ⟨pos, h⟩).get_chars_by_type t = []
        · rw [if_pos h0] at hcm
          exact get_charset_by_type_spec a t _ hcm
        · rw [if_neg h0] at hcm
          exact get_chars_by_type_spec _ t _ hcm
  · dsimp only
    by_cases hempty : a.get_charset_by_type t = []
    · rw [if_pos hempty]
      exact ⟨none, k, rfl, by simp⟩
    · rw [if_neg hempty]
      obtain ⟨c, k2, hrc, hcm⟩ := randomChoice_ok g hempty k
      rw [hrc]
      refine ⟨some c, k2, rfl, ?_⟩
      intro c2 hc2
      cases hc2
      exact get_charset_by_type_spec a t _ hcm

theorem find_compatible_typed_lt {a : AnalysisResult} {current : List (Option Char)}
    {target_pos : Nat} {t : CharType} {ls : LengthStats}
    (h : _find_compatible_typed_chars a current target_pos t ls ≠ []) :
    target_pos < ls.positions.length := by
  by_contra hlt
  exact h (by simp [_find_compatible_typed_chars, hlt])

theorem find_compatible_typed_spec {a : AnalysisResult} {current : List (Option Char)}
    {target_pos : Nat} {t : CharType} {ls : LengthStats} :
    ∀ x ∈ _find_compatible_typed_chars a current target_pos t ls,
      CharType.from_char x = t := by
  intro x hx
  unfold _find_compatible_typed_chars at hx
  split at hx
  · next h =>
      dsimp only at hx
      split at hx
      · simp at hx
      · exact get_chars_by_type_spec _ t x
          (coocFilterStep_subset a target_pos current.enum _ x hx)
  · simp at hx

theorem patternCompatible_lt {a : AnalysisResult} {ls : LengthStats} {hv : Bool}
    {result : List (Option Char)} {pos : Nat} {required : CharType}
    (h : patternCompatible a ls hv result pos required ≠ []) :
    pos < ls.positions.length := by
  unfold patternCompatible at h
  by_cases hb : hv = true
  · rw [if_pos hb] at h
    exact find_compatible_typed_lt h
  · rw [if_neg hb] at h
    exact absurd rfl h

theorem patternCompatible_spec {a : AnalysisResult} {ls : LengthStats} {hv : Bool}
    {result : List (Option Char)} {pos : Nat} {required : CharType} :
    ∀ x ∈ patternCompatible a ls hv result pos required,
      CharType.from_char x = required := by
  intro x hx
  unfold patternCompatible at hx
  by_cases hb : hv = true
  · rw [if_pos hb] at hx
    exact find_compatible_typed_spec x hx
  · rw [if_neg hb] at hx
    simp at hx

theorem patternFillStep_ok (g : RandSrc) (a : AnalysisResult) (ls : LengthStats)
    (hv : Bool) (result : List (Option Char)) (pos : Nat) (required : CharType)
    (k : Nat) :
    ∃ res k2, patternFillStep g a ls hv result pos required k = .ok (res, k2) ∧
      ∀ c, res = some c → CharType.from_char c = required := by
  unfold patternFillStep
  split
  · next hcond =>
      have hlt : pos < ls.positions.length := patternCompatible_lt hcond.1
      rw [(List.get?_eq_get hlt : ls.positions.get? pos = _)]
      dsimp only
      obtain ⟨c, k2, hwc, hcm⟩ := weightedChoice_ok g
        (l := (patternCompatible a ls hv result pos required).map
          (fun c => (c, alookupD (ls.positions.get ⟨pos, hlt⟩).char_counts c 1)))
        (by simpa using hcond.1) k
      rw [hwc]
      refine ⟨some c, k2, rfl, ?_⟩
      intro c2 hc2
      cases hc2
      rw [keysOf_map_pair] at hcm
      exact patternCompatible_spec _ hcm
  · exact get_char_of_type_ok g a pos required ls k

/-- The filling-loop invariant of `_generate_from_pattern`: the result array
has the pattern's length, the unfilled positions are exactly tracked (with
no duplicates, all within bounds), and every filled slot holds a character
of the class its pattern symbol denotes. -/
def PatInv (pat : List Char) (positions : List Nat) (result : List (Option Char)) : Prop :=
  result.length = pat.length ∧ positions.Nodup ∧
  (∀ pos ∈ positions, pos < pat.length) ∧
  (∀ i (hi : i < result.length) (hp : i < pat.length), i ∉ positions →
    ∃ c, result.get ⟨i, hi⟩ = some c ∧
      CharType.ofValue? (pat.get ⟨i, hp⟩) = some (CharType.from_char c))

theorem PatInv_set {pat : List Char} {positions : List Nat}
    {result : List (Option Char)} {pos : Nat} {c : Char}
    (hinv : PatInv pat positions result) (hposmem : pos ∈ positions)
    (hplt : pos < pat.length)
    (hc : ∀ hp : pos < pat.length,
      CharType.ofValue? (pat.get ⟨pos, hp⟩) = some (CharType.from_char c)) :
    PatInv pat (positions.erase pos) (result.set pos (some c)) := by
  obtain ⟨hlen, hnd, hmem, hfill⟩ := hinv
  refine ⟨by simpa [List.length_set] using hlen, hnd.erase pos,
    fun q hq => hmem q (List.mem_of_mem_erase hq), ?_⟩
  intro i hi hp hnotin
  by_cases hip : i = pos
  · subst hip
    exact ⟨c, List.get_set_eq _, hc hp⟩
  · rw [List.get_set_ne (fun h => hip h.symm) _]
    refine hfill i (by simpa using hi) hp ?_
    intro hmem2
    exact hnotin ((List.mem_erase_of_ne hip).mpr hmem2)

theorem patternFill_spec (g : RandSrc) (a : AnalysisResult) (pat : List Char)
    (ls : LengthStats) (hv : Bool) (maxR : Nat)
    (hvalid : ∀ c ∈ pat, (CharType.ofValue? c).isSome) :
    ∀ (fuel : Nat) (positions : List Nat) (retries : Nat)
      (result : List (Option Char)) (k : Nat),
      positions.length * (maxR + 1) + (maxR - retries) + 1 ≤ fuel →
      retries ≤ maxR →
      PatInv pat positions result →
      ∃ res leftover k2,
        patternFill g a pat ls hv maxR fuel positions retries result k =
          .ok (res, leftover, k2) ∧ PatInv pat leftover res := by
  intro fuel
  induction fuel with
  | zero =>
      intro positions retries result k hfuel
      omega
  | succ fuel ih =>
      intro positions retries result k hfuel hret hinv
      cases positions with
      | nil =>
          simp only [patternFill]
          exact ⟨result, [], k, rfl, hinv.1, List.nodup_nil, by simp,
            fun i hi hp _ => hinv.2.2.2 i hi hp (by simp)⟩
      | cons p ps =>
          simp only [patternFill]
          by_cases hr : retries < maxR
          · rw [if_pos hr]
            obtain ⟨pos, k1, hrc, hposmem⟩ :=
              randomChoice_ok g (l := p :: ps) (by simp) k
            rw [hrc]
            dsimp only
            have hplt : pos < pat.length := hinv.2.2.1 pos hposmem
            rw [(List.get?_eq_get hplt : pat.get? pos = _)]
            dsimp only
            obtain ⟨required, hreq⟩ := Option.isSome_iff_exists.mp
              (hvalid _ (List.get_mem pat pos hplt))
            rw [hreq]
            dsimp only
            obtain ⟨res0, k2, hstep, htyped⟩ :=
              patternFillStep_ok g a ls hv result pos required k1
            rw [hstep]
            cases res0 with
            | some c =>
                dsimp only
                have herase : ((p :: ps).erase pos).length = ps.length := by
                  rw [List.length_erase_of_mem hposmem]
                  simp
                refine ih ((p :: ps).erase pos) 0 (result.set pos (some c)) k2
                  ?_ (by omega) ?_
                · rw [herase]
                  simp only [List.length_cons] at hfuel
                  rw [Nat.succ_mul] at hfuel
                  omega
                · refine PatInv_set hinv hposmem hplt ?_
                  intro hp
                  rw [hreq, htyped c rfl]
            | none =>
                dsimp only
                refine ih (p :: ps) (retries + 1) result k2 ?_ (by omega) hinv
                simp only [List.length_cons] at hfuel ⊢
                omega
          · rw [if_neg hr]
            exact ⟨result, p :: ps, k, rfl, hinv⟩

theorem fillLeftover_spec (g : RandSrc) (a : AnalysisResult) (pat : List Char)
    (ls : LengthStats) (hvalid : ∀ c ∈ pat, (CharType.ofValue? c).isSome) :
    ∀ (leftover : List Nat) (result : List (Option Char)) (k : Nat),
      PatInv pat leftover result →
      ∃ res k2, fillLeftover g a pat ls leftover result k = .ok (res, k2) ∧
        (res = none ∨ ∃ final, res = some final ∧ PatInv pat [] final) := by
  intro leftover
  induction leftover with
  | nil =>
      intro result k hinv
      exact ⟨some result, k, rfl, Or.inr ⟨result, rfl, hinv⟩⟩
  | cons pos rest ih =>
      intro result k hinv
      simp only [fillLeftover]
      have hplt : pos < pat.length := hinv.2.2.1 pos (List.mem_cons_self _ _)
      rw [(List.get?_eq_get hplt : pat.get? pos = _)]
      dsimp only
      obtain ⟨required, hreq⟩ := Option.isSome_iff_exists.mp
        (hvalid _ (List.get_mem pat pos hplt))
      rw [hreq]
      dsimp only
      obtain ⟨res0, k2, hstep, htyped⟩ := get_char_of_type_ok g a pos required ls k
      rw [hstep]
      cases res0 with
      | none => exact ⟨none, k2, rfl, Or.inl rfl⟩
      | some c =>
          dsimp only
          refine ih (result.set pos (some c)) k2 ?_
          obtain ⟨hlen, hnd, hmem, hfill⟩ := hinv
          refine ⟨by simpa [List.length_set] using hlen, (List.nodup_cons.mp hnd).2,
            fun q hq => hmem q (List.mem_cons_of_mem _ hq), ?_⟩
          intro i hi hp hnotin
          by_cases hip : i = pos
          · subst hip
            exact ⟨c, List.get_set_eq _, by rw [hreq, htyped c rfl]⟩
          · rw [List.get_set_ne (fun h => hip h.symm) _]
            refine hfill i (by simpa using hi) hp ?_
            intro hmem2
            rcases List.mem_cons.mp hmem2 with h | h
            · exact hip h
            · exact hnotin h

theorem joinFilled_get :
    ∀ (l : List (Option Char)),
      (∀ i (hi : i < l.length), (l.get ⟨i, hi⟩).isSome) →
      (joinFilled l).length = l.length ∧
      ∀ i (hi : i < (joinFilled l).length) (hi2 : i < l.length),
        some ((joinFilled l).get ⟨i, hi⟩) = l.get ⟨i, hi2⟩ := by
  intro l
  induction l with
  | nil =>
      intro _
      refine ⟨rfl, ?_⟩
      intro i hi
      simp [joinFilled] at hi
  | cons oc t ih =>
      intro h
      cases oc with
      | none =>
          have := h 0 (by simp)
          simp at this
      | some c =>
          obtain ⟨hlen, hget⟩ := ih (fun i hi => h (i + 1) (by simpa using hi))
          refine ⟨by simpa [joinFilled] using hlen, ?_⟩
          intro i hi hi2
          cases i with
          | zero => rfl
          | succ i =>
              simpa [joinFilled] using hget i (by simpa [joinFilled] using hi)
                (by simpa using hi2)

theorem patternGlobalFill_spec (g : RandSrc) (a : AnalysisResult) :
    ∀ (pat acc : List Char) (k : Nat),
      (∀ c ∈ pat, (CharType.ofValue? c).isSome) →
      ∃ res k2, patternGlobalFill g a pat acc k = .ok (res, k2) ∧
        (res = none ∨ ∃ ext, res = some (acc ++ ext) ∧ ext.length = pat.length ∧
          ∀ i (hi : i < ext.length) (hp : i < pat.length),
            CharType.ofValue? (pat.get ⟨i, hp⟩) =
              some (CharType.from_char (ext.get ⟨i, hi⟩))) := by
  intro pat
  induction pat with
  | nil =>
      intro acc k _
      refine ⟨some acc, k, rfl, Or.inr ⟨[], by simp, rfl, ?_⟩⟩
      intro i hi
      simp at hi
  | cons sym rest ih =>
      intro acc k hvalid
      simp only [patternGlobalFill]
      obtain ⟨t, ht⟩ := Option.isSome_iff_exists.mp
        (hvalid sym (List.mem_cons_self _ _))
      rw [ht]
      dsimp only
      by_cases hempty : a.get_charset_by_type t = []
      · rw [if_pos hempty]
        exact ⟨none, k, rfl, Or.inl rfl⟩
      · rw [if_neg hempty]
        obtain ⟨c, k1, hrc, hcm⟩ := randomChoice_ok g hempty k
        rw [hrc]
        dsimp only
        obtain ⟨res, k2, hrun, hspec⟩ := ih (acc ++ [c]) k1
          (fun x hx => hvalid x (List.mem_cons_of_mem _ hx))
        refine ⟨res, k2, hrun, ?_⟩
        rcases hspec with h | ⟨ext, hres, hextlen, hexti⟩
        · exact Or.inl h
        · refine Or.inr ⟨c :: ext, by simpa using hres, by simpa using hextlen, ?_⟩
          intro i hi hp
          cases i with
          | zero =>
              simp only [List.get]
              rw [ht, get_charset_by_type_spec a t c hcm]
          | succ i =>
              simpa using hexti i (by simpa using hi) (by simpa using hp)

/-- C4.  For every type-pattern string of valid class symbols,
`PatternGenerator.generate_from_explicit_pattern` never raises: it returns
`None` or a string of exactly the pattern's length in which every character
belongs to the class denoted by the corresponding pattern symbol. -/
theorem C4_explicit_pattern :
    ∀ (minL maxL : Nat) (W : List Word) (r : AnalysisResult) (g : RandSrc)
      (maxR : Nat) (pat : List Char) (k : Nat),
      analyze_words minL maxL W = .ok r →
      (∀ c ∈ pat, (CharType.ofValue? c).isSome) →
      ∃ res k2, generate_from_explicit_pattern g r maxR pat k = .ok (res, k2) ∧
        (res = none ∨ ∃ s, res = some s ∧ s.length = pat.length ∧
          ∀ i (hi : i < s.length) (hp : i < pat.length),
            CharType.ofValue? (pat.get ⟨i, hp⟩) =
              some (CharType.from_char (s.get ⟨i, hi⟩))) := by
  intro minL maxL W r g maxR pat k hr hvalid
  have hwf := analyze_words_wf hr
  simp only [generate_from_explicit_pattern, _generate_from_pattern]
  cases halk : alookup r.length_stats pat.length with
  | none =>
      obtain ⟨res, k2, hrun, hspec⟩ := patternGlobalFill_spec g r pat [] k hvalid
      refine ⟨res, k2, hrun, ?_⟩
      rcases hspec with h | ⟨ext, hres, hlen, hexti⟩
      · exact Or.inl h
      · exact Or.inr ⟨ext, by simpa using hres, hlen, hexti⟩
  | some ls =>
      obtain ⟨hlen_eq, hpos_len, hLpos⟩ := hwf.entries _ (alookup_mem halk)
      simp only at hlen_eq hpos_len hLpos
      have hpat0 : 0 < pat.length := hlen_eq ▸ hLpos
      have hrange : (List.range pat.length) ≠ [] := by
        simp only [ne_eq, List.range_eq_nil]
        omega
      obtain ⟨start_pos, k1, hrc1, hsp⟩ := randomChoice_ok g hrange k
      rw [hrc1]
      dsimp only
      have hsplt : start_pos < pat.length := List.mem_range.mp hsp
      rw [(List.get?_eq_get hsplt : pat.get? start_pos = _)]
      dsimp only
      obtain ⟨required, hreq⟩ := Option.isSome_iff_exists.mp
        (hvalid _ (List.get_mem pat start_pos hsplt))
      rw [hreq]
      dsimp only
      obtain ⟨res0, k2, hstart, htyped⟩ :=
        get_char_of_type_ok g r start_pos required ls k1
      rw [hstart]
      cases res0 with
      | none => exact ⟨none, k2, rfl, Or.inl rfl⟩
      | some start_char =>
          dsimp only
          have hinv0 : PatInv pat ((List.range pat.length).erase start_pos)
              ((List.replicate pat.length none).set start_pos (some start_char)) := by
            refine ⟨by simp [List.length_set], (List.nodup_range _).erase _,
              fun q hq => List.mem_range.mp (List.mem_of_mem_erase hq), ?_⟩
            intro i hi hp hnotin
            have hip : i = start_pos := by
              by_contra hne
              exact hnotin ((List.mem_erase_of_ne hne).mpr (List.mem_range.mpr hp))
            subst hip
            exact ⟨start_char, List.get_set_eq _, by rw [hreq, htyped start_char rfl]⟩
          obtain ⟨resf, leftover, k3, hfillrun, hinvf⟩ :=
            patternFill_spec g r pat ls (decide (ls.count > 1)) maxR hvalid
              (((List.range pat.length).erase start_pos).length * (maxR + 1) + maxR + 1)
              ((List.range pat.length).erase start_pos) 0
              ((List.replicate pat.length none).set start_pos (some start_char)) k2
              (by omega) (by omega) hinv0
          rw [hfillrun]
          dsimp only
          obtain ⟨resl, k4, hleftrun, hlspec⟩ :=
            fillLeftover_spec g r pat ls hvalid leftover resf k3 hinvf
          rw [hleftrun]
          rcases hlspec with h | ⟨final, hres, hfinal⟩
          · subst h
            exact ⟨none, k4, rfl, Or.inl rfl⟩
          · subst hres
            dsimp only
            obtain ⟨hflen, -, -, hffill⟩ := hfinal
            have hall : ∀ i (hi : i < final.length), (final.get ⟨i, hi⟩).isSome := by
              intro i hi
              obtain ⟨c, hc, -⟩ := hffill i hi (by omega) (by simp)
              rw [hc]
              rfl
            obtain ⟨hjlen, hjget⟩ := joinFilled_get final hall
            refine ⟨some (joinFilled final), k4, rfl, Or.inr
              ⟨joinFilled final, rfl, by omega, ?_⟩⟩
            intro i hi hp
            obtain ⟨c, hc, hcok⟩ := hffill i (by omega) hp (by simp)
            have := hjget i hi (by omega)
            rw [hc] at this
            rw [hcok]
            cases this
            rfl

/-! ## Witnesses: concrete runs discharging the claim hypotheses -/

/-- Witness for C3: with the matcher `fun p s => decide (p = s)` for the
one-literal pattern `"a"`, a concrete `generate_one` run returns `"a"`,
and the round-trip theorem yields the successful full match. -/
theorem C3_regex_roundtrip_witness :
    (fun (p : List Char) (s : Word) => decide (p = s)) ['a'] ['a'] = true :=
  C3_regex_roundtrip (fun p s => decide (p = s)) (analyzeWordsD 1 256 [['a']])
    ⟨false, fun _ => 0, fun _ => 0⟩ true 1 ['a'] 0 ['a'] 0 (by
      simp [regexGenerateOne, regexRunInstrs, regexEmitN, chooseRepCount,
        _parse_pattern, parseLoop, _get_quantifier, Instr.quant])

/-- Witness for C10 at the analysis of the one-word corpus `["a"]`. -/
theorem C10_smart_never_none_witness :
    ∃ s k2, SmartGenerator.generate_one (⟨false, fun _ => 0, fun _ => 0⟩ : RandSrc)
        (analyzeWordsD 1 256 [['a']]) 0 = .ok (some s, k2) ∧
      s.length ∈ keysOf (analyzeWordsD 1 256 [['a']]).length_stats :=
  C10_smart_never_none 1 256 [['a']] (analyzeWordsD 1 256 [['a']])
    ⟨false, fun _ => 0, fun _ => 0⟩ 0 rfl (by decide)

/-- Witness for C4 at the analysis of `["a"]` and the type pattern `"l"`. -/
theorem C4_explicit_pattern_witness :
    ∃ res k2, generate_from_explicit_pattern (⟨false, fun _ => 0, fun _ => 0⟩ : RandSrc)
        (analyzeWordsD 1 256 [['a']]) 3 ['l'] 0 = .ok (res, k2) ∧
      (res = none ∨ ∃ s, res = some s ∧ s.length = (['l'] : List Char).length ∧
        ∀ i (hi : i < s.length) (hp : i < (['l'] : List Char).length),
          CharType.ofValue? ((['l'] : List Char).get ⟨i, hp⟩) =
            some (CharType.from_char (s.get ⟨i, hi⟩))) :=
  C4_explicit_pattern 1 256 [['a']] (analyzeWordsD 1 256 [['a']])
    ⟨false, fun _ => 0, fun _ => 0⟩ 3 ['l'] 0 rfl (by decide)

end EDAP
